import Mathlib

/-!
# Verification of the Nonogram SAT-solver core

Shallow embedding of the line-permutation enumerators, constraint validation,
forced-cell deduction, board encoding and uniqueness protocol of the Nonogram
solver repository, together with proofs of its specified properties.

Conventions:
* a line is a `List Nat` of `0`/`1` cells (blank / filled), as in the Python code;
* `Knowns` partial assignments are `List Int` with entries `-1` (undetermined),
  `0` (forced blank), `1` (forced filled), as the numpy `Paux` arrays;
* the in-place buffer `currPerm` of the Python recursion is threaded
  functionally: Python slice assignment `l[i:j] = new` becomes
  `l.take i ++ new ++ l.drop j`, and `l[i:] = new` becomes `l.take i ++ new`
  (Python clamps the slice start at the length, as `List.take` does).
-/

namespace Nonogram

/-- Embedding of `computePermsAux` from `project1nonogramFinal.py` (the variant
without `Knowns`). `constraints` are the blocks left to place, `i` the placing
index, `sz` the line length, `curr` the shared buffer. Returns the list of
permutations appended to `Perms`, in emission order. -/
def computePermsAux (constraints : List Nat) (i sz : Nat) (curr : List Nat) :
    List (List Nat) :=
  if i = sz then [curr]
  else
    match constraints with
    | [] => [curr.take i ++ List.replicate (sz - i) 0]
    | b :: rest =>
      -- whiteSpaces = sz - i - sum(constraints) - (len(constraints) - 1)
      (if h : (0 : Int) < (sz : Int) - (i : Int) - ((b + rest.sum : Nat) : Int) - ((rest.length : Nat) : Int) then
        computePermsAux (b :: rest) (i + 1) sz (curr.set i 0)
      else []) ++
      (if hr : rest = [] then
        computePermsAux rest (i + b) sz
          (curr.take i ++ List.replicate b 1 ++ curr.drop (i + b))
      else
        computePermsAux rest (i + b + 1) sz
          ((curr.take i ++ List.replicate b 1 ++ curr.drop (i + b)).set (i + b) 0))
termination_by constraints.length + (sz - i)
decreasing_by
  · simp only [List.length_cons]; omega
  · simp only [List.length_cons]; omega
  · simp only [List.length_cons]; omega

/-- Embedding of `computePerms` from `project1nonogramFinal.py`: no input
validation, starts the recursion on an all-zero buffer. -/
def computePerms (constraints : List Nat) (sz : Nat) : List (List Nat) :=
  computePermsAux constraints 0 sz (List.replicate sz 0)

/-- Pure reformulation of the enumeration: the list of valid suffixes of length
`m` for the remaining blocks `c`, in the emission order of `computePermsAux`
(blank branch first, then block branch). Proven equal to the embedded recursion
in `computePermsAux_eq_suffixList`. -/
def suffixList : List Nat → Nat → List (List Nat)
  | [], m => [List.replicate m 0]
  | b :: rest, m =>
    (if h : b + rest.sum + rest.length < m then
      (suffixList (b :: rest) (m - 1)).map (fun s => 0 :: s)
    else []) ++
    (if hr : rest = [] then
      (suffixList [] (m - b)).map (fun s => List.replicate b 1 ++ s)
    else
      (suffixList rest (m - b - 1)).map (fun s => List.replicate b 1 ++ 0 :: s))
termination_by c m => c.length + m
decreasing_by
  · simp only [List.length_cons]; omega
  · simp only [List.length_cons, List.length_nil]; omega
  · simp only [List.length_cons]; omega

/-- Embedding of the clue-building loop of `generate_valid_nonogram`
(`generateNonograms.py`): the accumulator `acc` is the running count of
consecutive `1` cells; a positive count is flushed on a non-`1` cell and at the
end. This is also the maximal-run decoding of a binary line. -/
def runsAux : List Nat → Nat → List Nat
  | [], acc => if 0 < acc then [acc] else []
  | x :: xs, acc =>
    if x = 1 then runsAux xs (acc + 1)
    else if 0 < acc then acc :: runsAux xs 0 else runsAux xs 0

/-- Maximal runs of `1`s of a line, left to right (the row/column clue of a
grid line in `generate_valid_nonogram`). -/
def runs (l : List Nat) : List Nat := runsAux l 0

/-- Embedding of `checkConstraints` from `project1nonogramFinal.py` /
`project1nonogramoptimizedmax.py`: every value positive and
`sum + len - 1 <= lineLength`, for every horizontal and vertical constraint. -/
def checkConstraints (H V : List (List Nat)) : Bool :=
  H.all (fun h =>
    h.all (fun c => decide (0 < c)) &&
    !(decide ((h.sum : Int) + h.length - 1 > (V.length : Int)))) &&
  V.all (fun v =>
    v.all (fun c => decide (0 < c)) &&
    !(decide ((v.sum : Int) + v.length - 1 > (H.length : Int))))

/-- Python `Knowns is not None and Knowns[j] == 1`. -/
def knownFilledAt (Knowns : Option (List Int)) (j : Nat) : Bool :=
  match Knowns with
  | some K => decide (K.getD j (-1) = 1)
  | none => false

/-- Python `Knowns is not None and any(Knowns[i:] == 1)`. -/
def knownFilledFrom (Knowns : Option (List Int)) (i : Nat) : Bool :=
  match Knowns with
  | some K => (K.drop i).any (fun x => decide (x = 1))
  | none => false

/-- Python `Knowns is not None and any(Knowns[i:i+b] == 0)`. -/
def knownBlankIn (Knowns : Option (List Int)) (i b : Nat) : Bool :=
  match Knowns with
  | some K => ((K.drop i).take b).any (fun x => decide (x = 0))
  | none => false

/-- Embedding of `computePermsAux` from `project1nonogramoptimizedmax.py` (the
`Knowns`-aware variant). `Knowns` is `none` for Python `None`, otherwise the
numpy row of `-1`/`0`/`1` values. Note that the blank branch recurses with
`none`: the Python call on line 35 omits the `Knowns` argument. Out-of-range
`Knowns` indexing (which raises in numpy but is reachable only on infeasible
inputs) is modelled by `getD` with the undetermined default. -/
def computePermsAuxOpt (constraints : List Nat) (i sz : Nat) (curr : List Nat)
    (Knowns : Option (List Int)) : List (List Nat) :=
  if i = sz then [curr]
  else
    match constraints with
    | [] =>
      if knownFilledFrom Knowns i then []
      else [curr.take i ++ List.replicate (sz - i) 0]
    | b :: rest =>
      (if h : (0 : Int) < (sz : Int) - (i : Int) - ((b + rest.sum : Nat) : Int) - ((rest.length : Nat) : Int) then
        if knownFilledAt Knowns i then []
        else computePermsAuxOpt (b :: rest) (i + 1) sz (curr.set i 0) none
      else []) ++
      (if knownBlankIn Knowns i b then []
       else if hr : rest = [] then
        computePermsAuxOpt rest (i + b) sz
          (curr.take i ++ List.replicate b 1 ++ curr.drop (i + b)) Knowns
      else
        if knownFilledAt Knowns (i + b) then []
        else computePermsAuxOpt rest (i + b + 1) sz
          ((curr.take i ++ List.replicate b 1 ++ curr.drop (i + b)).set (i + b) 0) Knowns)
termination_by constraints.length + (sz - i)
decreasing_by
  · simp only [List.length_cons]; omega
  · simp only [List.length_cons]; omega
  · simp only [List.length_cons]; omega

/-- Embedding of `computePerms` from `project1nonogramoptimizedmax.py`
(no input validation). -/
def computePermsOpt (constraints : List Nat) (sz : Nat)
    (Knowns : Option (List Int)) : List (List Nat) :=
  computePermsAuxOpt constraints 0 sz (List.replicate sz 0) Knowns

/-- Embedding of `computePermsAux` from `NonogramSolverPlots.py`: identical to
the optimizedmax variant except that the blank branch passes `Knowns` on
(line 42 of the source). -/
def computePermsAuxPlots (constraints : List Nat) (i sz : Nat) (curr : List Nat)
    (Knowns : Option (List Int)) : List (List Nat) :=
  if i = sz then [curr]
  else
    match constraints with
    | [] =>
      if knownFilledFrom Knowns i then []
      else [curr.take i ++ List.replicate (sz - i) 0]
    | b :: rest =>
      (if h : (0 : Int) < (sz : Int) - (i : Int) - ((b + rest.sum : Nat) : Int) - ((rest.length : Nat) : Int) then
        if knownFilledAt Knowns i then []
        else computePermsAuxPlots (b :: rest) (i + 1) sz (curr.set i 0) Knowns
      else []) ++
      (if knownBlankIn Knowns i b then []
       else if hr : rest = [] then
        computePermsAuxPlots rest (i + b) sz
          (curr.take i ++ List.replicate b 1 ++ curr.drop (i + b)) Knowns
      else
        if knownFilledAt Knowns (i + b) then []
        else computePermsAuxPlots rest (i + b + 1) sz
          ((curr.take i ++ List.replicate b 1 ++ curr.drop (i + b)).set (i + b) 0) Knowns)
termination_by constraints.length + (sz - i)
decreasing_by
  · simp only [List.length_cons]; omega
  · simp only [List.length_cons]; omega
  · simp only [List.length_cons]; omega

/-- Embedding of `computePerms` from `NonogramSolverPlots.py`: this driver
validates the constraint before enumerating, exiting fatally on a
non-positive value (`exit(1)`) or on a constraint that cannot fit
(`exit(2)`). The exit code is modelled as the `Except` error value. -/
def computePermsPlots (constraints : List Nat) (sz : Nat)
    (Knowns : Option (List Int)) : Except Nat (List (List Nat)) :=
  if ¬ constraints.all (fun c => decide (0 < c)) then Except.error 1
  else if (constraints.sum : Int) + constraints.length - 1 > (sz : Int) then Except.error 2
  else Except.ok (computePermsAuxPlots constraints 0 sz (List.replicate sz 0) Knowns)

/-! ### Forced-cell deduction (`Paux`) from `project1nonogramoptimizedmax.py` -/

/-- The per-position verdict of a permutation set, as computed by the numpy
code: a position is `1` if the column sum of the permutation matrix equals the
number of permutations, `0` if it is zero, `-1` otherwise. The `0` test is
applied after the `1` test in the source, so it wins when both hold (empty
permutation set). -/
def verdictOf (perms : List (List Nat)) (j : Nat) : Int :=
  if (perms.map fun pm => pm.getD j 0).sum = 0 then 0
  else if (perms.map fun pm => pm.getD j 0).sum = perms.length then 1
  else -1

/-- The final value of `Paux[r, c]` in `well_posed_optimized`: the row pass
writes the row verdicts, then the column pass overwrites every cell whose
column verdict is determined. The source computes the permutation sets of this
phase by calling its own enumerator with `Knowns=None`, which coincides with
the plain enumeration (`auxOpt_none_eq` below), so they are embedded via
`computePerms`. -/
def PauxAt (H V : List (List Nat)) (r c : Nat) : Int :=
  let colV := verdictOf (computePerms (V.getD c []) H.length) r
  if colV = -1 then verdictOf (computePerms (H.getD r []) V.length) c else colV

/-- Row `r` of `Paux`, the `Knowns` array passed to the row enumeration. -/
def PauxRow (H V : List (List Nat)) (r : Nat) : List Int :=
  (List.range V.length).map fun c => PauxAt H V r c

/-- Column `c` of `Paux`, the `Knowns` array passed to the column enumeration. -/
def PauxCol (H V : List (List Nat)) (c : Nat) : List Int :=
  (List.range H.length).map fun r => PauxAt H V r c

/-! ### The board formulas and the uniqueness protocol -/

/-- Row `r` of a grid of boolean cell variables, as the 0/1 line the formulas
constrain (cell `(r, c)` filled iff `g r c = true`). -/
def rowList {R C : Nat} (g : Fin R → Fin C → Bool) (r : Fin R) : List Nat :=
  List.ofFn fun c => if g r c then 1 else 0

/-- Column `c` of a grid of boolean cell variables as a 0/1 line. -/
def colList {R C : Nat} (g : Fin R → Fin C → Bool) (c : Fin C) : List Nat :=
  List.ofFn fun r => if g r c then 1 else 0

/-- A grid satisfies the formula built by `nonogram` / `well_posed` in
`project1nonogramFinal.py`: every row agrees with one of its permutations and
every column agrees with one of its permutations (each row/column clause is the
disjunction over `computePerms` of the full conjunction of literals). -/
def Solves (H V : List (List Nat)) (g : Fin H.length → Fin V.length → Bool) : Prop :=
  (∀ r, rowList g r ∈ computePerms (H.get r) V.length) ∧
  (∀ c, colList g c ∈ computePerms (V.get c) H.length)

/-- A grid satisfies the formula built by `well_posed_optimized` in
`project1nonogramoptimizedmax.py`: the unit constraints from `Paux`, plus the
row/column clauses built from the `Knowns`-pruned permutation sets. -/
def SolvesOptimized (H V : List (List Nat))
    (g : Fin H.length → Fin V.length → Bool) : Prop :=
  (∀ (r : Fin H.length) (c : Fin V.length),
    (PauxAt H V r c = 1 → g r c = true) ∧ (PauxAt H V r c = 0 → g r c = false)) ∧
  (∀ r, rowList g r ∈ computePermsOpt (H.get r) V.length (some (PauxRow H V r))) ∧
  (∀ c, colList g c ∈ computePermsOpt (V.get c) H.length (some (PauxCol H V c)))

/-- The blocking clause added after the first model: the disjunction of the
negations of the positive literals of `s1`, i.e. some cell filled in `s1` is
blank in `s2`. -/
def Blocking {R C : Nat} (s1 s2 : Fin R → Fin C → Bool) : Prop :=
  ∃ r c, s1 r c = true ∧ s2 r c = false

/-- A grid is a genuine solution of a puzzle: the maximal runs of every row and
of every column are exactly the corresponding clues. -/
def GenuineSolution (H V : List (List Nat))
    (g : Fin H.length → Fin V.length → Bool) : Prop :=
  (∀ r, runs (rowList g r) = H.get r) ∧ (∀ c, runs (colList g c) = V.get c)

/-! ### The `apply_constraints` encoding of `project1nonogram.py` -/

/-- Embedding of the inner `place_blocks` of `apply_constraints`
(`project1nonogram.py`): try every start `i` of the next block from `start` to
`n - block_size`; the block cells must be filled, the cell right after it must
be blank only when more blocks remain and it exists, and the rest is placed
recursively from `i + block_size + 1`. Cells in `[start, i)` are left
unconstrained by the source, which this embedding reproduces. -/
def placeBlocksSat (cells : List Bool) (start : Nat) : List Nat → Bool
  | [] => (cells.drop start).all (fun c => !c)
  | b :: rest =>
    (List.range' start (cells.length + 1 - b - start)).any fun i =>
      ((List.range' i b).all (fun j => cells.getD j false)) &&
      (if rest ≠ [] && decide (i + b < cells.length) then !(cells.getD (i + b) false)
       else true) &&
      placeBlocksSat cells (i + b + 1) rest

/-- Embedding of `apply_constraints` (`project1nonogram.py`): an empty
constraint forces the whole line blank, otherwise `place_blocks` from 0. -/
def applyConstraintsSat (cells : List Bool) (cs : List Nat) : Bool :=
  if cs = [] then cells.all (fun c => !c) else placeBlocksSat cells 0 cs

/-- A grid (list of rows of booleans) satisfies the full formula built by
`nonogram` in `project1nonogram.py`: `apply_constraints` on every row with `H`
and on every column with `V`. -/
def nonogramSatAC (V H : List (List Nat)) (g : List (List Bool)) : Bool :=
  (List.range H.length).all (fun r => applyConstraintsSat (g.getD r []) (H.getD r [])) &&
  (List.range V.length).all (fun c =>
    applyConstraintsSat (g.map fun row => row.getD c false) (V.getD c []))

/-- A model of the `project1nonogram.py` formula: a grid of the right shape
satisfying every row and column clause. -/
def ACSolves (V H : List (List Nat)) (g : List (List Bool)) : Prop :=
  g.length = H.length ∧ (∀ row ∈ g, row.length = V.length) ∧ nonogramSatAC V H g = true

/-- The verdict of `well_posed` in `project1nonogram.py` under a sound and
complete oracle: `True` exactly when its formula has a unique model (its
exclusion clause `Or(grid[r][c] != solution[r][c])` excludes exactly the first
model). -/
def wellPosedAC (V H : List (List Nat)) : Prop := ∃! g, ACSolves V H g

/-! ### Clue generation from `generateNonograms.py` -/

/-- The clue of one line in `generate_valid_nonogram`: the run list, or `[0]`
if the line is empty (`row_clue if row_clue else [0]`). -/
def lineClue (l : List Nat) : List Nat := if runs l = [] then [0] else runs l

/-- The row clues emitted by `generate_valid_nonogram` for a grid. -/
def rowClues (grid : List (List Nat)) : List (List Nat) := grid.map lineClue

/-- Column `c` of a grid stored as a list of rows. -/
def colOf (grid : List (List Nat)) (c : Nat) : List Nat :=
  grid.map fun row => row.getD c 0

/-- The column clues emitted by `generate_valid_nonogram` for a grid with `C`
columns. -/
def colClues (grid : List (List Nat)) (C : Nat) : List (List Nat) :=
  (List.range C).map fun c => lineClue (colOf grid c)

/-! ### The fixed 10×10 example of `project1nonogram.py` (lines 124–125) -/

/-- Horizontal (row) constraints of the fixed example. -/
def H7 : List (List Nat) := [[1],[4],[1,3],[5],[2],[3,1],[1,3],[2,1],[3],[3]]

/-- Vertical (column) constraints of the fixed example. -/
def V7 : List (List Nat) := [[3],[2,1],[2,2],[3,1],[1,1],[2],[4],[1,3],[1,1],[4]]

/-- A first model of the `apply_constraints` formula for the fixed example. -/
def G7a : List (List Bool) :=
  [[true ,false,false,false,false,false,false,false,false,false],
   [true ,true ,true ,true ,false,false,false,false,false,false],
   [true ,false,true ,true ,true ,false,false,false,false,false],
   [true ,true ,true ,true ,true ,false,false,false,false,false],
   [false,false,false,false,false,false,true ,true ,false,false],
   [true ,true ,true ,false,true ,false,false,false,false,false],
   [false,true ,false,false,false,false,true ,true ,true ,true ],
   [true ,false,false,false,false,false,true ,true ,false,true ],
   [true ,false,true ,false,false,true ,true ,true ,true ,true ],
   [true ,true ,true ,true ,false,true ,true ,true ,true ,true ]]

/-- A second model of the `apply_constraints` formula for the fixed example:
identical to `G7a` except that the last row is entirely filled. -/
def G7b : List (List Bool) :=
  [[true ,false,false,false,false,false,false,false,false,false],
   [true ,true ,true ,true ,false,false,false,false,false,false],
   [true ,false,true ,true ,true ,false,false,false,false,false],
   [true ,true ,true ,true ,true ,false,false,false,false,false],
   [false,false,false,false,false,false,true ,true ,false,false],
   [true ,true ,true ,false,true ,false,false,false,false,false],
   [false,true ,false,false,false,false,true ,true ,true ,true ],
   [true ,false,false,false,false,false,true ,true ,false,true ],
   [true ,false,true ,false,false,true ,true ,true ,true ,true ],
   [true ,true ,true ,true ,true ,true ,true ,true ,true ,true ]]

/-! ## Basic list lemmas -/

theorem take_set_succ {α : Type} (l : List α) (i : Nat) (a : α) (h : i < l.length) :
    (l.set i a).take (i + 1) = l.take i ++ [a] := by
  induction l generalizing i with
  | nil => simp at h
  | cons x xs ih =>
    cases i with
    | zero => simp
    | succ j =>
      simp only [List.set_cons_succ, List.take_succ_cons, List.cons_append]
      rw [ih j (by simpa using h)]

theorem length_le_sum (c : List Nat) (hpos : ∀ x ∈ c, 0 < x) : c.length ≤ c.sum := by
  induction c with
  | nil => simp
  | cons b rest ih =>
    have hb : 0 < b := hpos b (by simp)
    have := ih (fun x hx => hpos x (by simp [hx]))
    simp only [List.length_cons, List.sum_cons]
    omega

/-- `computePermsAux` with no blocks left emits the blank-filled completion,
also when `i = sz`. -/
theorem computePermsAux_nil (i sz : Nat) (curr : List Nat)
    (hcur : curr.length = sz) :
    computePermsAux [] i sz curr = [curr.take i ++ List.replicate (sz - i) 0] := by
  rw [computePermsAux]
  by_cases hi : i = sz
  · subst hi
    simp [← hcur]
  · simp [hi]

/-- Master characterization: on a feasible remainder the embedded recursion
emits exactly the valid suffixes, each appended to the untouched prefix of the
buffer, in emission order. -/
theorem computePermsAux_eq_suffixList :
    ∀ (n : Nat) (c : List Nat) (i sz : Nat) (curr : List Nat),
      c.length + (sz - i) ≤ n →
      curr.length = sz →
      i + c.sum + c.length ≤ sz + 1 →
      (∀ x ∈ c, 0 < x) →
      computePermsAux c i sz curr =
        (suffixList c (sz - i)).map (fun s => curr.take i ++ s) := by
  intro n
  induction n with
  | zero =>
    intro c i sz curr hn hcur hfit hpos
    have hc : c = [] := by
      cases c with
      | nil => rfl
      | cons b rest => simp at hn
    subst hc
    rw [computePermsAux_nil i sz curr hcur, suffixList]
    simp
  | succ n ih =>
    intro c i sz curr hn hcur hfit hpos
    cases c with
    | nil =>
      rw [computePermsAux_nil i sz curr hcur, suffixList]
      simp
    | cons b rest =>
      have hb : 0 < b := hpos b (by simp)
      have hsum : rest.length ≤ rest.sum :=
        length_le_sum rest (fun x hx => hpos x (by simp [hx]))
      have hi : i ≠ sz := by
        intro h
        subst h
        simp only [List.sum_cons, List.length_cons] at hfit
        omega
      have hfit' : i + b + rest.sum + rest.length ≤ sz := by
        simp only [List.sum_cons, List.length_cons] at hfit
        omega
      have hiz : i < sz := by omega
      have hib : i + b ≤ sz := by omega
      have hn' : (b :: rest).length + (sz - i) ≤ n + 1 := hn
      -- unfold one step of the recursion and of the suffix list
      rw [computePermsAux]
      simp only [hi, if_false]
      rw [suffixList, List.map_append]
      congr 1
      · -- blank branch
        by_cases hw : b + rest.sum + rest.length < sz - i
        · have hInt : (0 : Int) < (sz : Int) - (i : Int) - ((b + rest.sum : Nat) : Int) - ((rest.length : Nat) : Int) := by
            omega
          rw [dif_pos hInt, dif_pos hw]
          rw [ih (b :: rest) (i + 1) sz (curr.set i 0)
            (by simp only [List.length_cons] at hn ⊢; omega)
            (by simp [hcur])
            (by simp only [List.sum_cons, List.length_cons]; omega)
            hpos]
          rw [List.map_map]
          have hm : sz - (i + 1) = sz - i - 1 := by omega
          rw [hm]
          apply List.map_congr_left
          intro s _
          simp only [Function.comp_apply]
          rw [take_set_succ curr i 0 (by omega)]
          simp
        · have hInt : ¬ (0 : Int) < (sz : Int) - (i : Int) - ((b + rest.sum : Nat) : Int) - ((rest.length : Nat) : Int) := by
            omega
          rw [dif_neg hInt, dif_neg hw]
          simp
      · -- block branch
        have hA : (curr.take i ++ List.replicate b 1).length = i + b := by
          simp only [List.length_append, List.length_take, List.length_replicate]
          omega
        have htake2 : (curr.take i ++ List.replicate b 1 ++ curr.drop (i + b)).take (i + b) =
            curr.take i ++ List.replicate b 1 := List.take_left' hA
        have hcur2 : (curr.take i ++ List.replicate b 1 ++ curr.drop (i + b)).length = sz := by
          simp only [List.length_append, List.length_take, List.length_replicate,
            List.length_drop]
          omega
        by_cases hr : rest = []
        · subst hr
          rw [dif_pos rfl, dif_pos rfl]
          rw [computePermsAux_nil _ _ _ hcur2, htake2]
          rw [suffixList]
          simp only [List.map_map, List.map_cons, List.map_nil, Function.comp_apply]
          have hm : sz - (i + b) = sz - i - b := by omega
          rw [hm, List.append_assoc]
        · rw [dif_neg hr, dif_neg hr]
          have hrl : 1 ≤ rest.length := by
            cases rest with
            | nil => exact absurd rfl hr
            | cons x xs => simp
          have hrs : 1 ≤ rest.sum := le_trans hrl hsum
          have hibz : i + b < sz := by omega
          have h1 : rest.length + (sz - (i + b + 1)) ≤ n := by
            simp only [List.length_cons] at hn; omega
          have h2 : ((curr.take i ++ List.replicate b 1 ++ curr.drop (i + b)).set (i + b) 0).length = sz := by
            rw [List.length_set]; exact hcur2
          have h3 : (i + b + 1) + rest.sum + rest.length ≤ sz + 1 := by omega
          have h4 : ∀ x ∈ rest, 0 < x := fun x hx => hpos x (by simp [hx])
          have hx := ih rest (i + b + 1) sz
            ((curr.take i ++ List.replicate b 1 ++ curr.drop (i + b)).set (i + b) 0) h1 h2 h3 h4
          rw [hx]
          rw [take_set_succ _ (i + b) 0 (by rw [hcur2]; omega), htake2]
          rw [List.map_map]
          have hm : sz - (i + b + 1) = sz - i - b - 1 := by omega
          rw [hm]
          apply List.map_congr_left
          intro s _
          simp

/-! ## Lemmas about `runs` -/

theorem runsAux_replicate_zero (k acc : Nat) :
    runsAux (List.replicate k 0) acc = if 0 < acc then [acc] else [] := by
  induction k generalizing acc with
  | zero => rfl
  | succ k ih =>
    rw [List.replicate_succ, runsAux, if_neg (by decide : ¬ (0 : Nat) = 1), ih 0]
    by_cases h : 0 < acc <;> simp [h]

theorem runsAux_replicate_one (b : Nat) (t : List Nat) :
    ∀ acc, runsAux (List.replicate b 1 ++ t) acc = runsAux t (acc + b) := by
  induction b with
  | zero => intro acc; simp
  | succ b ih =>
    intro acc
    rw [List.replicate_succ, List.cons_append, runsAux, if_pos rfl, ih (acc + 1)]
    congr 1
    omega

theorem runs_nil : runs [] = [] := rfl

theorem runs_cons_zero (t : List Nat) : runs (0 :: t) = runs t := by
  simp [runs, runsAux]

theorem runs_replicate_zero (k : Nat) : runs (List.replicate k 0) = [] := by
  simp [runs, runsAux_replicate_zero]

theorem runs_block (b : Nat) (hb : 0 < b) (t : List Nat) :
    runs (List.replicate b 1 ++ 0 :: t) = b :: runs t := by
  simp only [runs, runsAux_replicate_one, Nat.zero_add, runsAux,
    if_neg (by decide : ¬ (0 : Nat) = 1), if_pos hb]

theorem runs_block_end (b : Nat) (hb : 0 < b) (k : Nat) :
    runs (List.replicate b 1 ++ List.replicate k 0) = [b] := by
  simp only [runs, runsAux_replicate_one, Nat.zero_add, runsAux_replicate_zero, if_pos hb]

theorem runsAux_sum (s : List Nat) (hbin : ∀ x ∈ s, x = 0 ∨ x = 1) :
    ∀ acc, (runsAux s acc).sum = acc + s.sum := by
  induction s with
  | nil => intro acc; by_cases h : 0 < acc <;> (simp [runsAux, h]; try omega)
  | cons x xs ih =>
    intro acc
    have hx := hbin x (by simp)
    have hxs : ∀ y ∈ xs, y = 0 ∨ y = 1 := fun y hy => hbin y (by simp [hy])
    rcases hx with h0 | h1
    · subst h0
      rw [runsAux, if_neg (by decide : ¬ (0 : Nat) = 1)]
      by_cases h : 0 < acc
      · rw [if_pos h]
        simp only [List.sum_cons, ih hxs 0]
      · rw [if_neg h, ih hxs 0]
        simp only [List.sum_cons]
        omega
    · subst h1
      rw [runsAux, if_pos rfl, ih hxs (acc + 1)]
      simp only [List.sum_cons]
      omega

/-- For a binary line, the total of the run lengths is the number of filled
cells. -/
theorem runs_sum (s : List Nat) (hbin : ∀ x ∈ s, x = 0 ∨ x = 1) :
    (runs s).sum = s.sum := by
  simpa using runsAux_sum s hbin 0

theorem runsAux_pos (s : List Nat) : ∀ acc, ∀ x ∈ runsAux s acc, 0 < x := by
  induction s with
  | nil =>
    intro acc x hx
    rw [runsAux] at hx
    by_cases hacc : 0 < acc
    · rw [if_pos hacc] at hx
      simp only [List.mem_singleton] at hx
      omega
    · rw [if_neg hacc] at hx
      simp at hx
  | cons y ys ih =>
    intro acc x hx
    by_cases hy : y = 1
    · rw [runsAux, if_pos hy] at hx
      exact ih (acc + 1) x hx
    · rw [runsAux, if_neg hy] at hx
      by_cases hacc : 0 < acc
      · rw [if_pos hacc] at hx
        rcases List.mem_cons.mp hx with h | h
        · omega
        · exact ih 0 x h
      · rw [if_neg hacc] at hx
        exact ih 0 x hx

/-- Every run length produced by `runs` is positive. -/
theorem runs_pos (s : List Nat) : ∀ x ∈ runs s, 0 < x := runsAux_pos s 0

/-! ## Properties of the suffix lists -/

/-- `suffixList` on the empty constraint. -/
theorem suffixList_nil (m : Nat) : suffixList [] m = [List.replicate m 0] := by
  rw [suffixList]

/-- Every emitted suffix has the right length, is binary, and decodes back to
the constraint via maximal runs. -/
theorem mem_suffixList_props :
    ∀ (c : List Nat) (m : Nat), (∀ x ∈ c, 0 < x) → c.sum + c.length ≤ m + 1 →
      ∀ s ∈ suffixList c m,
        s.length = m ∧ (∀ x ∈ s, x = 0 ∨ x = 1) ∧ runs s = c := by
  intro c m
  induction c, m using suffixList.induct with
  | case1 m =>
    intro _ _ s hs
    rw [suffixList_nil, List.mem_singleton] at hs
    subst hs
    exact ⟨by simp, fun x hx => Or.inl (List.eq_of_mem_replicate hx),
      runs_replicate_zero m⟩
  | case2 b rest m ih1 ih2 ih3 =>
    intro hpos hfit s hs
    have hb : 0 < b := hpos b (by simp)
    have hsum : rest.length ≤ rest.sum :=
      length_le_sum rest (fun x hx => hpos x (by simp [hx]))
    simp only [List.sum_cons, List.length_cons] at hfit
    rw [suffixList] at hs
    rcases List.mem_append.mp hs with hblank | hblock
    · -- blank branch
      by_cases hw : b + rest.sum + rest.length < m
      · rw [dif_pos hw] at hblank
        rcases List.mem_map.mp hblank with ⟨t, ht, rfl⟩
        obtain ⟨hlen, hbin, hruns⟩ := ih1 hw hpos
          (by simp only [List.sum_cons, List.length_cons]; omega) t ht
        refine ⟨by simp only [List.length_cons, hlen]; omega, ?_, ?_⟩
        · intro x hx
          rcases List.mem_cons.mp hx with h | h
          · left; exact h
          · exact hbin x h
        · rw [runs_cons_zero, hruns]
      · rw [dif_neg hw] at hblank
        simp at hblank
    · -- block branch
      by_cases hr : rest = []
      · subst hr
        rw [dif_pos rfl, suffixList_nil] at hblock
        simp only [List.map_cons, List.map_nil, List.mem_singleton] at hblock
        subst hblock
        simp only [List.sum_nil, List.length_nil] at hfit
        refine ⟨?_, ?_, ?_⟩
        · simp only [List.length_append, List.length_replicate]
          omega
        · intro x hx
          rcases List.mem_append.mp hx with h | h
          · right; exact List.eq_of_mem_replicate h
          · left; exact List.eq_of_mem_replicate h
        · rw [runs_block_end b hb]
      · rw [dif_neg hr] at hblock
        rcases List.mem_map.mp hblock with ⟨t, ht, rfl⟩
        have hrl : 1 ≤ rest.length := by
          cases rest with
          | nil => exact absurd rfl hr
          | cons x xs => simp
        obtain ⟨hlen, hbin, hruns⟩ := ih3 (fun x hx => hpos x (by simp [hx])) (by omega) t ht
        refine ⟨?_, ?_, ?_⟩
        · simp only [List.length_append, List.length_replicate, List.length_cons, hlen]
          omega
        · intro x hx
          rcases List.mem_append.mp hx with h | h
          · right; exact List.eq_of_mem_replicate h
          · rcases List.mem_cons.mp h with h0 | h0
            · left; exact h0
            · exact hbin x h0
        · rw [runs_block b hb, hruns]

/-! ## Completeness: every binary line is emitted for its own run list -/

theorem runsAux_ne_nil (s : List Nat) : ∀ acc, 0 < acc → runsAux s acc ≠ [] := by
  induction s with
  | nil =>
    intro acc hacc
    rw [runsAux, if_pos hacc]
    simp
  | cons x xs ih =>
    intro acc hacc
    by_cases hx : x = 1
    · rw [runsAux, if_pos hx]
      exact ih (acc + 1) (by omega)
    · rw [runsAux, if_neg hx, if_pos hacc]
      simp

theorem eq_zero_of_runs_nil (s : List Nat) (hbin : ∀ x ∈ s, x = 0 ∨ x = 1)
    (h : runs s = []) : ∀ x ∈ s, x = 0 := by
  induction s with
  | nil => simp
  | cons x xs ih =>
    intro y hy
    rcases hbin x (by simp) with h0 | h1
    · subst h0
      rw [runs_cons_zero] at h
      rcases List.mem_cons.mp hy with rfl | hmem
      · rfl
      · exact ih (fun z hz => hbin z (by simp [hz])) h y hmem
    · subst h1
      exact absurd h (runsAux_ne_nil xs 1 (by omega))

theorem runsAux_head_ge (s : List Nat) :
    ∀ (acc r : Nat) (l : List Nat), runsAux s acc = r :: l → acc ≤ r := by
  induction s with
  | nil =>
    intro acc r l h
    rw [runsAux] at h
    by_cases hacc : 0 < acc
    · rw [if_pos hacc] at h
      simp only [List.cons.injEq] at h
      omega
    · rw [if_neg hacc] at h
      simp at h
  | cons x xs ih =>
    intro acc r l h
    by_cases hx : x = 1
    · rw [runsAux, if_pos hx] at h
      have := ih (acc + 1) r l h
      omega
    · rw [runsAux, if_neg hx] at h
      by_cases hacc : 0 < acc
      · rw [if_pos hacc] at h
        simp only [List.cons.injEq] at h
        omega
      · omega

/-- Decomposition of a binary line whose first run (continuing the open
accumulator) is known: it starts with the rest of that run, then either ends or
continues with a blank cell followed by the remaining runs. -/
theorem runsAux_decomp (s : List Nat) :
    ∀ (acc k : Nat) (rest : List Nat),
      (∀ x ∈ s, x = 0 ∨ x = 1) → 0 < acc →
      runsAux s acc = (acc + k) :: rest →
      ∃ t, s = List.replicate k 1 ++ t ∧
        ((t = [] ∧ rest = []) ∨ (∃ u, t = 0 :: u ∧ runs u = rest)) := by
  induction s with
  | nil =>
    intro acc k rest hbin hacc h
    rw [runsAux, if_pos hacc] at h
    simp only [List.cons.injEq] at h
    obtain ⟨h1, h2⟩ := h
    have hk : k = 0 := by omega
    subst hk
    exact ⟨[], by simp, Or.inl ⟨rfl, h2.symm⟩⟩
  | cons x xs ih =>
    intro acc k rest hbin hacc h
    have hxs : ∀ y ∈ xs, y = 0 ∨ y = 1 := fun y hy => hbin y (by simp [hy])
    rcases hbin x (by simp) with h0 | h1
    · subst h0
      rw [runsAux, if_neg (by decide : ¬ (0 : Nat) = 1), if_pos hacc] at h
      simp only [List.cons.injEq] at h
      obtain ⟨h1, h2⟩ := h
      have hk : k = 0 := by omega
      subst hk
      exact ⟨0 :: xs, by simp, Or.inr ⟨xs, rfl, by rw [runs]; exact h2⟩⟩
    · subst h1
      rw [runsAux, if_pos rfl] at h
      have hge := runsAux_head_ge xs (acc + 1) (acc + k) rest h
      have hk : 1 ≤ k := by omega
      have h' : runsAux xs (acc + 1) = ((acc + 1) + (k - 1)) :: rest := by
        rw [h]
        congr 1
        omega
      obtain ⟨t, hts, hdisj⟩ := ih (acc + 1) (k - 1) rest hxs (by omega) h'
      refine ⟨t, ?_, hdisj⟩
      rw [hts]
      have : (1 : Nat) :: (List.replicate (k - 1) 1 ++ t) =
          (1 :: List.replicate (k - 1) 1) ++ t := rfl
      rw [this, ← List.replicate_succ]
      congr 2
      omega

/-- Feasibility of the decoded runs: the minimum space they require fits the
line. -/
theorem runsAux_min_length (s : List Nat) :
    ∀ acc, (runsAux s acc).sum + (runsAux s acc).length ≤ s.length + acc + 1 := by
  induction s with
  | nil =>
    intro acc
    rw [runsAux]
    by_cases hacc : 0 < acc
    · rw [if_pos hacc]
      simp
    · rw [if_neg hacc]
      simp
  | cons x xs ih =>
    intro acc
    by_cases hx : x = 1
    · rw [runsAux, if_pos hx]
      have := ih (acc + 1)
      simp only [List.length_cons]
      omega
    · rw [runsAux, if_neg hx]
      by_cases hacc : 0 < acc
      · rw [if_pos hacc]
        have := ih 0
        simp only [List.sum_cons, List.length_cons]
        omega
      · rw [if_neg hacc]
        have := ih 0
        simp only [List.length_cons]
        omega

theorem runs_min_length (s : List Nat) :
    (runs s).sum + (runs s).length ≤ s.length + 1 := by
  simpa using runsAux_min_length s 0

/-- Completeness of the suffix enumeration: every binary line of length `m`
belongs to the suffix list of its own run decomposition. -/
theorem mem_suffixList_of_runs :
    ∀ (n : Nat) (s : List Nat), s.length ≤ n → (∀ x ∈ s, x = 0 ∨ x = 1) →
      s ∈ suffixList (runs s) s.length := by
  intro n
  induction n with
  | zero =>
    intro s hn hbin
    have : s = [] := by
      cases s with
      | nil => rfl
      | cons x xs => simp at hn
    subst this
    rw [runs_nil, suffixList_nil]
    simp
  | succ n ih =>
    intro s hn hbin
    cases s with
    | nil =>
      rw [runs_nil, suffixList_nil]
      simp
    | cons x xs =>
      have hxs : ∀ y ∈ xs, y = 0 ∨ y = 1 := fun y hy => hbin y (by simp [hy])
      rcases hbin x (by simp) with h0 | h1
      · -- s starts with a blank cell
        subst h0
        rw [runs_cons_zero]
        cases hr : runs xs with
        | nil =>
          have hz : ∀ y ∈ (0 : Nat) :: xs, y = 0 := by
            intro y hy
            rcases List.mem_cons.mp hy with rfl | hmem
            · rfl
            · exact eq_zero_of_runs_nil xs hxs hr y hmem
          have : (0 : Nat) :: xs = List.replicate ((0 : Nat) :: xs).length 0 :=
            List.eq_replicate_of_mem hz
          rw [suffixList_nil, this]
          simp
        | cons b rest =>
          have hfeas := runs_min_length xs
          rw [hr] at hfeas
          simp only [List.sum_cons, List.length_cons] at hfeas
          rw [suffixList]
          apply List.mem_append_left
          rw [dif_pos (by simp only [List.length_cons]; omega)]
          apply List.mem_map_of_mem
          have := ih xs (by simpa using hn) hxs
          rw [hr] at this
          simpa using this
      · -- s starts with a filled cell
        subst h1
        have hcons : runs (1 :: xs) = runsAux xs 1 := by
          rw [runs, runsAux, if_pos rfl]
        cases hr : runsAux xs 1 with
        | nil => exact absurd hr (runsAux_ne_nil xs 1 (by omega))
        | cons b rest =>
          have hge := runsAux_head_ge xs 1 b rest hr
          have hr' : runsAux xs 1 = (1 + (b - 1)) :: rest := by
            rw [hr]
            congr 1
            omega
          obtain ⟨t, hts, hdisj⟩ := runsAux_decomp xs 1 (b - 1) rest hxs (by omega) hr'
          have hs : (1 : Nat) :: xs = List.replicate b 1 ++ t := by
            rw [hts]
            have : (1 : Nat) :: (List.replicate (b - 1) 1 ++ t) =
                (1 :: List.replicate (b - 1) 1) ++ t := rfl
            rw [this, ← List.replicate_succ]
            congr 2
            omega
          rw [hcons, hr]
          rcases hdisj with ⟨ht, hrest⟩ | ⟨u, htu, hru⟩
          · -- the line ends right after the first run
            subst ht hrest
            rw [suffixList]
            apply List.mem_append_right
            rw [dif_pos rfl, suffixList_nil]
            simp only [List.map_cons, List.map_nil, List.mem_singleton]
            rw [hs]
            simp
          · -- a blank separator follows the first run
            subst htu
            have hubin : ∀ y ∈ u, y = 0 ∨ y = 1 := by
              intro y hy
              apply hxs
              have : xs = List.replicate (b - 1) 1 ++ 0 :: u := hts
              rw [this]
              simp [hy]
            cases rest with
            | nil =>
              -- the remaining cells are all blank
              have hz : ∀ y ∈ u, y = 0 := eq_zero_of_runs_nil u hubin hru
              have hu : u = List.replicate u.length 0 := List.eq_replicate_of_mem hz
              rw [suffixList]
              apply List.mem_append_right
              rw [dif_pos rfl, suffixList_nil]
              simp only [List.map_cons, List.map_nil, List.mem_singleton]
              rw [hs, hu]
              have h1 : (List.replicate b 1 ++ 0 :: List.replicate u.length (0 : Nat)).length - b
                  = u.length + 1 := by
                simp only [List.length_append, List.length_replicate, List.length_cons]
                omega
              rw [h1, List.replicate_succ]
            | cons r2 rs =>
              rw [suffixList]
              apply List.mem_append_right
              rw [dif_neg (by simp : ¬ (r2 :: rs) = [])]
              apply List.mem_map.mpr
              refine ⟨u, ?_, ?_⟩
              · have := ih u (by rw [hts] at hn; simp at hn; omega) hubin
                rw [hru] at this
                have hlen : ((1 : Nat) :: xs).length - b - 1 = u.length := by
                  rw [hs]
                  simp only [List.length_append, List.length_replicate, List.length_cons]
                  omega
                rw [hlen]
                exact this
              · rw [hs]

/-! ## Counting: the stars-and-bars bound -/

/-- The number of emitted suffixes is the stars-and-bars binomial. -/
theorem suffixList_count :
    ∀ (c : List Nat) (m : Nat), (∀ x ∈ c, 0 < x) → c.sum + c.length ≤ m + 1 →
      (suffixList c m).length = Nat.choose (m - c.sum + 1) c.length := by
  intro c m
  induction c, m using suffixList.induct with
  | case1 m =>
    intro _ _
    rw [suffixList_nil]
    simp
  | case2 b rest m ih1 ih2 ih3 =>
    intro hpos hfit
    have hb : 0 < b := hpos b (by simp)
    have hsum : rest.length ≤ rest.sum :=
      length_le_sum rest (fun x hx => hpos x (by simp [hx]))
    simp only [List.sum_cons, List.length_cons] at hfit ⊢
    rw [suffixList, List.length_append]
    have hblock : (if hr : rest = [] then
        (suffixList [] (m - b)).map (fun s => List.replicate b 1 ++ s)
      else
        (suffixList rest (m - b - 1)).map
          (fun s => List.replicate b 1 ++ 0 :: s)).length =
        Nat.choose (m - (b + rest.sum)) rest.length := by
      by_cases hr : rest = []
      · subst hr
        rw [dif_pos rfl, suffixList_nil]
        simp
      · have hrl : 1 ≤ rest.length := by
          cases rest with
          | nil => exact absurd rfl hr
          | cons x xs => simp
        rw [dif_neg hr, List.length_map]
        rw [ih3 (fun x hx => hpos x (by simp [hx])) (by omega)]
        congr 1
        omega
    by_cases hw : b + rest.sum + rest.length < m
    · rw [dif_pos hw, List.length_map]
      rw [ih1 hw hpos (by simp only [List.sum_cons, List.length_cons]; omega)]
      rw [hblock]
      simp only [List.sum_cons, List.length_cons]
      have h1 : m - 1 - (b + rest.sum) + 1 = m - (b + rest.sum) := by omega
      rw [h1, Nat.choose_succ_succ]
      simp only [Nat.succ_eq_add_one]
      omega
    · rw [dif_neg hw]
      simp only [List.length_nil, Nat.zero_add, hblock, List.sum_cons, List.length_cons]
      have hm : m = b + rest.sum + rest.length := by omega
      have h1 : m - (b + rest.sum) = rest.length := by omega
      rw [h1, Nat.choose_self, Nat.choose_self]

/-! ## Order: strict lexicographic order of the emission -/

theorem lex_append_left (x : List Nat) {s t : List Nat}
    (h : List.Lex (fun a b : Nat => a < b) s t) :
    List.Lex (fun a b : Nat => a < b) (x ++ s) (x ++ t) := by
  induction x with
  | nil => exact h
  | cons a as ih => exact List.Lex.cons ih

theorem lex_lt_irrefl : ∀ (s : List Nat), ¬ List.Lex (fun a b : Nat => a < b) s s := by
  intro s h
  induction s with
  | nil => cases h
  | cons x xs ih =>
    cases h with
    | cons h => exact ih h
    | rel h => exact lt_irrefl x h

/-- The emitted suffixes are strictly increasing lexicographically (blank
before filled at the first differing position). -/
theorem suffixList_pairwise_lex :
    ∀ (c : List Nat) (m : Nat), (∀ x ∈ c, 0 < x) → c.sum + c.length ≤ m + 1 →
      (suffixList c m).Pairwise (List.Lex (fun a b : Nat => a < b)) := by
  intro c m
  induction c, m using suffixList.induct with
  | case1 m =>
    intro _ _
    rw [suffixList_nil]
    simp
  | case2 b rest m ih1 ih2 ih3 =>
    intro hpos hfit
    have hb : 0 < b := hpos b (by simp)
    have hsum : rest.length ≤ rest.sum :=
      length_le_sum rest (fun x hx => hpos x (by simp [hx]))
    simp only [List.sum_cons, List.length_cons] at hfit
    rw [suffixList]
    apply List.pairwise_append.mpr
    refine ⟨?_, ?_, ?_⟩
    · -- the blank part is sorted
      by_cases hw : b + rest.sum + rest.length < m
      · rw [dif_pos hw]
        apply List.pairwise_map.mpr
        have := ih1 hw hpos (by simp only [List.sum_cons, List.length_cons]; omega)
        exact this.imp (fun h => List.Lex.cons h)
      · rw [dif_neg hw]
        exact List.Pairwise.nil
    · -- the block part is sorted
      by_cases hr : rest = []
      · subst hr
        rw [dif_pos rfl, suffixList_nil]
        simp
      · have hrl : 1 ≤ rest.length := by
          cases rest with
          | nil => exact absurd rfl hr
          | cons x xs => simp
        rw [dif_neg hr]
        apply List.pairwise_map.mpr
        have := ih3 (fun x hx => hpos x (by simp [hx])) (by omega)
        refine this.imp (fun h => ?_)
        have := lex_append_left (List.replicate b 1 ++ [0]) h
        simpa using this
    · -- everything in the blank part precedes everything in the block part
      intro p hp q hq
      by_cases hw : b + rest.sum + rest.length < m
      · rw [dif_pos hw] at hp
        rcases List.mem_map.mp hp with ⟨s, _, rfl⟩
        obtain ⟨b', rfl⟩ : ∃ b', b = b' + 1 := ⟨b - 1, by omega⟩
        by_cases hr : rest = []
        · rw [dif_pos hr] at hq
          rcases List.mem_map.mp hq with ⟨t, _, rfl⟩
          rw [List.replicate_succ, List.cons_append]
          exact List.Lex.rel (by omega)
        · rw [dif_neg hr] at hq
          rcases List.mem_map.mp hq with ⟨t, _, rfl⟩
          rw [List.replicate_succ, List.cons_append]
          exact List.Lex.rel (by omega)
      · rw [dif_neg hw] at hp
        simp at hp

/-- The emitted suffixes are pairwise distinct. -/
theorem suffixList_nodup (c : List Nat) (m : Nat) (hpos : ∀ x ∈ c, 0 < x)
    (hfit : c.sum + c.length ≤ m + 1) : (suffixList c m).Nodup :=
  (suffixList_pairwise_lex c m hpos hfit).imp
    (fun h heq => absurd (heq ▸ h) (lex_lt_irrefl _))

/-! ## Bridge: `computePerms` on feasible inputs -/

/-- For a feasible constraint the driver enumerates exactly the suffix list. -/
theorem computePerms_eq_suffixList (c : List Nat) (sz : Nat)
    (hpos : ∀ x ∈ c, 0 < x) (hfit : c.sum + c.length ≤ sz + 1) :
    computePerms c sz = suffixList c sz := by
  rw [computePerms,
    computePermsAux_eq_suffixList (c.length + sz) c 0 sz (List.replicate sz 0)
      (by omega) (by simp) (by omega) hpos]
  simp

/-- Membership characterization of the enumeration: exactly the binary lines of
the right length that decode to the constraint. -/
theorem mem_computePerms_iff (c : List Nat) (sz : Nat)
    (hpos : ∀ x ∈ c, 0 < x) (hfit : c.sum + c.length ≤ sz + 1) (pm : List Nat) :
    pm ∈ computePerms c sz ↔
      pm.length = sz ∧ (∀ x ∈ pm, x = 0 ∨ x = 1) ∧ runs pm = c := by
  rw [computePerms_eq_suffixList c sz hpos hfit]
  constructor
  · exact fun h => mem_suffixList_props c sz hpos hfit pm h
  · rintro ⟨hlen, hbin, hruns⟩
    have := mem_suffixList_of_runs pm.length pm le_rfl hbin
    rw [hruns, hlen] at this
    exact this

/-- Every emitted permutation has exactly `c.sum` filled cells. -/
theorem sum_of_mem_computePerms (c : List Nat) (sz : Nat)
    (hpos : ∀ x ∈ c, 0 < x) (hfit : c.sum + c.length ≤ sz + 1) (pm : List Nat)
    (h : pm ∈ computePerms c sz) : pm.sum = c.sum := by
  obtain ⟨_, hbin, hruns⟩ := (mem_computePerms_iff c sz hpos hfit pm).mp h
  rw [← hruns, runs_sum pm hbin]

/-- What passing `checkConstraints` guarantees: every line constraint is
feasible for its line length. -/
theorem checkConstraints_spec (H V : List (List Nat)) (h : checkConstraints H V = true) :
    (∀ hc ∈ H, (∀ x ∈ hc, 0 < x) ∧ hc.sum + hc.length ≤ V.length + 1) ∧
    (∀ vc ∈ V, (∀ x ∈ vc, 0 < x) ∧ vc.sum + vc.length ≤ H.length + 1) := by
  rw [checkConstraints, Bool.and_eq_true, List.all_eq_true, List.all_eq_true] at h
  obtain ⟨h1, h2⟩ := h
  constructor
  · intro hc hmem
    have := h1 hc hmem
    rw [Bool.and_eq_true, List.all_eq_true] at this
    obtain ⟨ha, hb⟩ := this
    refine ⟨fun x hx => by simpa using ha x hx, ?_⟩
    simp only [Bool.not_eq_true', decide_eq_false_iff_not, not_lt] at hb
    omega
  · intro vc hmem
    have := h2 vc hmem
    rw [Bool.and_eq_true, List.all_eq_true] at this
    obtain ⟨ha, hb⟩ := this
    refine ⟨fun x hx => by simpa using ha x hx, ?_⟩
    simp only [Bool.not_eq_true', decide_eq_false_iff_not, not_lt] at hb
    omega

/-! ## Claims C4, C5, C9 -/

/-- Claim C4: for every feasible constraint (all values positive,
`sum + len - 1 <= sz`) and no Knowns, `computePerms` returns pairwise-distinct
permutations and their number is the stars-and-bars bound
`C(sz - sum + 1, len)`. -/
theorem computePerms_nodup_count (c : List Nat) (sz : Nat)
    (hpos : ∀ x ∈ c, 0 < x) (hfit : c.sum + c.length - 1 ≤ sz) :
    (computePerms c sz).Nodup ∧
      (computePerms c sz).length = Nat.choose (sz - c.sum + 1) c.length := by
  have hfit' : c.sum + c.length ≤ sz + 1 := by omega
  rw [computePerms_eq_suffixList c sz hpos hfit']
  exact ⟨suffixList_nodup c sz hpos hfit', suffixList_count c sz hpos hfit'⟩

/-- Witness for C4 at the concrete input `c = [1, 2]`, `sz = 5`. -/
theorem computePerms_nodup_count_witness :
    ((∀ x ∈ [1, 2], 0 < x) ∧ [1, 2].sum + [1, 2].length - 1 ≤ 5) ∧
      ((computePerms [1, 2] 5).Nodup ∧
        (computePerms [1, 2] 5).length = Nat.choose (5 - [1, 2].sum + 1) [1, 2].length) :=
  ⟨⟨by decide, by decide⟩, computePerms_nodup_count [1, 2] 5 (by decide) (by decide)⟩

/-- Claim C5: for every feasible constraint and length `sz` with no Knowns,
every emitted sequence is a 0/1 sequence of length exactly `sz` whose maximal
runs of 1s, left to right, are exactly the constraint. -/
theorem computePerms_length_binary_runs (c : List Nat) (sz : Nat)
    (hpos : ∀ x ∈ c, 0 < x) (hfit : c.sum + c.length - 1 ≤ sz) :
    ∀ pm ∈ computePerms c sz,
      (∀ x ∈ pm, x = 0 ∨ x = 1) ∧ pm.length = sz ∧ runs pm = c := by
  intro pm h
  have hfit' : c.sum + c.length ≤ sz + 1 := by omega
  obtain ⟨hlen, hbin, hruns⟩ := (mem_computePerms_iff c sz hpos hfit' pm).mp h
  exact ⟨hbin, hlen, hruns⟩

/-- Witness for C5 at the concrete input `c = [1]`, `sz = 3`. -/
theorem computePerms_length_binary_runs_witness :
    ((∀ x ∈ [1], 0 < x) ∧ [1].sum + [1].length - 1 ≤ 3) ∧
      (∀ pm ∈ computePerms [1] 3,
        (∀ x ∈ pm, x = 0 ∨ x = 1) ∧ pm.length = 3 ∧ runs pm = [1]) :=
  ⟨⟨by decide, by decide⟩, computePerms_length_binary_runs [1] 3 (by decide) (by decide)⟩

/-- Claim C9: for every feasible constraint with no Knowns, the emitted list is
strictly increasing in lexicographic order with blank (0) below filled (1):
the blank branch is explored before the block branch, so no permutation is
emitted twice and all-blank-prefixed completions come first. -/
theorem computePerms_lex_strict (c : List Nat) (sz : Nat)
    (hpos : ∀ x ∈ c, 0 < x) (hfit : c.sum + c.length - 1 ≤ sz) :
    (computePerms c sz).Pairwise (List.Lex (fun a b : Nat => a < b)) := by
  have hfit' : c.sum + c.length ≤ sz + 1 := by omega
  rw [computePerms_eq_suffixList c sz hpos hfit']
  exact suffixList_pairwise_lex c sz hpos hfit'

/-- Witness for C9 at the concrete input `c = [1]`, `sz = 3`. -/
theorem computePerms_lex_strict_witness :
    ((∀ x ∈ [1], 0 < x) ∧ [1].sum + [1].length - 1 ≤ 3) ∧
      (computePerms [1] 3).Pairwise (List.Lex (fun a b : Nat => a < b)) :=
  ⟨⟨by decide, by decide⟩, computePerms_lex_strict [1] 3 (by decide) (by decide)⟩

/-! ## Claims C3 and C8 -/

/-- Claim C3 (counterexample): the enumerator of `project1nonogramFinal.py`
performs no feasibility check: on the infeasible input `([2], 1)` it silently
returns a wrong permutation set (a single sequence of length 2 for a line of
length 1) instead of rejecting the input. -/
theorem computePerms_unchecked_silently_wrong :
    computePerms [2] 1 = [[1, 1]] ∧ ¬ ([1, 1] : List Nat).length = 1 := by
  constructor
  · rw [computePerms, computePermsAux]
    norm_num
    rw [computePermsAux]
    norm_num
    decide
  · decide

/-- Claim C3 (amended): the checked driver of `NonogramSolverPlots.py` rejects
every infeasible constraint/length pair as a fatal error (exit code 1 for a
non-positive value, 2 for a constraint that cannot fit) before enumerating. -/
theorem computePermsPlots_rejects_infeasible (c : List Nat) (sz : Nat)
    (K : Option (List Int))
    (h : ¬ (∀ x ∈ c, 0 < x) ∨ (c.sum : Int) + c.length - 1 > (sz : Int)) :
    ∃ e, computePermsPlots c sz K = Except.error e := by
  by_cases h1 : c.all (fun x => decide (0 < x)) = true
  · rw [computePermsPlots, if_neg (by simp [h1])]
    have hlen : (c.sum : Int) + c.length - 1 > (sz : Int) := by
      rcases h with hneg | hlen
      · exact absurd (fun x hx => by simpa using List.all_eq_true.mp h1 x hx) hneg
      · exact hlen
    rw [if_pos hlen]
    exact ⟨2, rfl⟩
  · rw [computePermsPlots, if_pos (by simpa using h1)]
    exact ⟨1, rfl⟩

/-- Witness for the amended C3 at the concrete infeasible input `([2], 1)`. -/
theorem computePermsPlots_rejects_infeasible_witness :
    (¬ (∀ x ∈ [2], 0 < x) ∨ ([2].sum : Int) + [2].length - 1 > ((1 : Nat) : Int)) ∧
      ∃ e, computePermsPlots [2] 1 none = Except.error e :=
  ⟨by right; decide, computePermsPlots_rejects_infeasible [2] 1 none (by right; decide)⟩

/-- Claim C8 (counterexample): an explicit `0` constraint line is not accepted:
`checkConstraints` rejects the 1×1 puzzle whose row and column clue are `[0]`,
and the checked enumerator exits fatally (code 1) on the clue `[0]`. -/
theorem zero_clue_rejected :
    checkConstraints [[0]] [[0]] = false ∧
      computePermsPlots [0] 1 none = Except.error 1 := by
  constructor
  · decide
  · rw [computePermsPlots, if_pos (by decide)]

/-- Claim C8 (amended): a constraint line containing the value `0` is rejected
by constraint validation (`checkConstraints` returns `False` whenever a
horizontal clue contains `0`), and the checked enumerator of
`NonogramSolverPlots.py` exits fatally with code 1 on the clue `[0]`,
regardless of the line length. -/
theorem zero_clue_rejection_behaviour :
    (∀ (H V : List (List Nat)) (line : List Nat),
      line ∈ H → (0 : Nat) ∈ line → checkConstraints H V = false) ∧
    (∀ (sz : Nat) (K : Option (List Int)),
      computePermsPlots [0] sz K = Except.error 1) := by
  constructor
  · intro H V line hline h0
    cases hcc : checkConstraints H V with
    | false => rfl
    | true =>
      obtain ⟨hH, _⟩ := checkConstraints_spec H V hcc
      have := (hH line hline).1 0 h0
      omega
  · intro sz K
    rw [computePermsPlots, if_pos (by decide)]

/-- Witness for the amended C8 at the concrete input `H = V = [[0]]`, line
`[0]`, `sz = 1`. -/
theorem zero_clue_rejection_behaviour_witness :
    ([0] ∈ [[0]] ∧ (0 : Nat) ∈ [0]) ∧
      (checkConstraints [[0]] [[0]] = false ∧
        computePermsPlots [0] 1 none = Except.error 1) :=
  ⟨⟨by decide, by decide⟩,
    zero_clue_rejection_behaviour.1 [[0]] [[0]] [0] (by decide) (by decide),
    zero_clue_rejection_behaviour.2 1 none⟩

/-! ## The uniqueness protocol (claim C1) -/

theorem sum_le_of_pointwise_le :
    ∀ (l1 l2 : List Nat), l1.length = l2.length →
      (∀ k, l1.getD k 0 ≤ l2.getD k 0) → l1.sum ≤ l2.sum := by
  intro l1
  induction l1 with
  | nil => intro l2 _ _; simp
  | cons x xs ih =>
    intro l2 hlen hle
    cases l2 with
    | nil => simp at hlen
    | cons y ys =>
      have hx := hle 0
      simp only [List.getD_cons_zero] at hx
      have := ih ys (by simpa using hlen) (fun k => by simpa using hle (k + 1))
      simp only [List.sum_cons]
      omega

theorem eq_of_pointwise_le_sum_eq :
    ∀ (l1 l2 : List Nat), l1.length = l2.length →
      (∀ k, l1.getD k 0 ≤ l2.getD k 0) → l1.sum = l2.sum → l1 = l2 := by
  intro l1
  induction l1 with
  | nil =>
    intro l2 hlen _ _
    cases l2 with
    | nil => rfl
    | cons y ys => simp at hlen
  | cons x xs ih =>
    intro l2 hlen hle hsum
    cases l2 with
    | nil => simp at hlen
    | cons y ys =>
      have hx := hle 0
      simp only [List.getD_cons_zero] at hx
      have htail : ∀ k, xs.getD k 0 ≤ ys.getD k 0 := fun k => by simpa using hle (k + 1)
      have hlen' : xs.length = ys.length := by simpa using hlen
      have hts := sum_le_of_pointwise_le xs ys hlen' htail
      simp only [List.sum_cons] at hsum
      have hxy : x = y := by omega
      have : xs.sum = ys.sum := by omega
      rw [hxy, ih ys hlen' htail this]

theorem rowList_length {R C : Nat} (g : Fin R → Fin C → Bool) (r : Fin R) :
    (rowList g r).length = C := by
  rw [rowList, List.length_ofFn]

theorem colList_length {R C : Nat} (g : Fin R → Fin C → Bool) (c : Fin C) :
    (colList g c).length = R := by
  rw [colList, List.length_ofFn]

theorem rowList_getD {R C : Nat} (g : Fin R → Fin C → Bool) (r : Fin R) (c : Fin C) :
    (rowList g r).getD (c : Nat) 0 = if g r c then 1 else 0 := by
  rw [rowList, List.getD_eq_getElem?_getD, List.getElem?_ofFn, List.ofFnNthVal,
    dif_pos c.isLt]
  simp

theorem colList_getD {R C : Nat} (g : Fin R → Fin C → Bool) (c : Fin C) (r : Fin R) :
    (colList g c).getD (r : Nat) 0 = if g r c then 1 else 0 := by
  rw [colList, List.getD_eq_getElem?_getD, List.getElem?_ofFn, List.ofFnNthVal,
    dif_pos r.isLt]
  simp

/-- Core of the two-call protocol: assuming the first model solves the
formula, the blocking clause is unsatisfiable together with the formula
exactly when the first model is the only solution. The key point is that the
blocking clause only negates the positive literals of `s1`: a solution it
fails to exclude contains every filled cell of `s1`, and since all solutions
of a row share the same number of filled cells, it must equal `s1`. -/
theorem blocking_unsat_iff_unique (H V : List (List Nat))
    (hc : checkConstraints H V = true)
    (s1 : Fin H.length → Fin V.length → Bool) (h1 : Solves H V s1) :
    (¬ ∃ s2, Solves H V s2 ∧ Blocking s1 s2) ↔ (∀ s, Solves H V s → s = s1) := by
  obtain ⟨hH, hV⟩ := checkConstraints_spec H V hc
  constructor
  · intro hno s hs
    have hle : ∀ r c, s1 r c = true → s r c = true := by
      intro r c h
      by_contra hfalse
      exact hno ⟨s, hs, r, c, h, by revert hfalse; cases s r c <;> simp⟩
    have hroweq : ∀ r, rowList s1 r = rowList s r := by
      intro r
      have hfeas := hH (H.get r) (H.get_mem _ r.isLt)
      apply eq_of_pointwise_le_sum_eq
      · rw [rowList_length, rowList_length]
      · intro k
        by_cases hk : k < V.length
        · have := rowList_getD s1 r ⟨k, hk⟩
          rw [show ((⟨k, hk⟩ : Fin V.length) : Nat) = k from rfl] at this
          rw [this]
          have := rowList_getD s r ⟨k, hk⟩
          rw [show ((⟨k, hk⟩ : Fin V.length) : Nat) = k from rfl] at this
          rw [this]
          by_cases hcell : s1 r ⟨k, hk⟩ = true
          · rw [if_pos hcell, if_pos (hle r ⟨k, hk⟩ hcell)]
          · rw [if_neg hcell]
            split <;> omega
        · rw [List.getD_eq_default, List.getD_eq_default]
          · rw [rowList_length]; omega
          · rw [rowList_length]; omega
      · rw [sum_of_mem_computePerms (H.get r) V.length hfeas.1 hfeas.2 _ (h1.1 r),
          sum_of_mem_computePerms (H.get r) V.length hfeas.1 hfeas.2 _ (hs.1 r)]
    funext r c
    have := congrArg (fun l => l.getD (c : Nat) 0) (hroweq r)
    simp only [rowList_getD] at this
    revert this
    cases s r c <;> cases s1 r c <;> simp
  · rintro huniq ⟨s2, hs2, r, c, hcell1, hcell2⟩
    rw [huniq s2 hs2] at hcell2
    rw [hcell1] at hcell2
    simp at hcell2

/-- Claim C1: for every puzzle accepted by `checkConstraints` and any first
model `s1` returned by the oracle, the second oracle call (with the blocking
clause built from `s1` appended) is unsatisfiable exactly when `s1` is the only
solution, and when it is satisfiable the puzzle has a second solution distinct
from `s1`; hence `well_posed` returns `True` iff the puzzle has exactly one
satisfying grid. -/
theorem well_posed_second_check_iff_unique (H V : List (List Nat))
    (hc : checkConstraints H V = true)
    (s1 : Fin H.length → Fin V.length → Bool) (h1 : Solves H V s1) :
    ((¬ ∃ s2, Solves H V s2 ∧ Blocking s1 s2) ↔ (∀ s, Solves H V s → s = s1)) ∧
    ((∃ s2, Solves H V s2 ∧ Blocking s1 s2) →
      ∃ s2, Solves H V s2 ∧ s2 ≠ s1) := by
  refine ⟨blocking_unsat_iff_unique H V hc s1 h1, ?_⟩
  rintro ⟨s2, hs2, r, c, hcell1, hcell2⟩
  refine ⟨s2, hs2, fun heq => ?_⟩
  rw [heq, hcell1] at hcell2
  simp at hcell2

/-- Concrete evaluation: the only permutation of the clue `[1]` in a line of
length 1 is the filled cell. -/
theorem computePerms_one_one : computePerms [1] 1 = [[1]] := by
  rw [computePerms, computePermsAux]
  norm_num
  rw [computePermsAux]
  norm_num

/-- The all-filled grid solves the 1×1 puzzle with clues `[[1]]`, `[[1]]`. -/
theorem solves_one_one : Solves [[1]] [[1]] (fun _ _ => true) := by
  constructor <;> intro x <;> fin_cases x <;>
    simp [rowList, colList, List.ofFn_succ, computePerms_one_one]

/-- Witness for C1 at the 1×1 puzzle `H = V = [[1]]` with the all-filled first
model. -/
theorem well_posed_second_check_iff_unique_witness :
    (checkConstraints [[1]] [[1]] = true ∧ Solves [[1]] [[1]] (fun _ _ => true)) ∧
      (((¬ ∃ s2, Solves [[1]] [[1]] s2 ∧ Blocking (fun _ _ => true) s2) ↔
          (∀ s, Solves [[1]] [[1]] s → s = fun _ _ => true)) ∧
        ((∃ s2, Solves [[1]] [[1]] s2 ∧ Blocking (fun _ _ => true) s2) →
          ∃ s2, Solves [[1]] [[1]] s2 ∧ s2 ≠ fun _ _ => true)) :=
  ⟨⟨by decide, solves_one_one⟩,
    well_posed_second_check_iff_unique [[1]] [[1]] (by decide) _ solves_one_one⟩

/-! ## Claim C2: the optimizedmax enumerator violates its Knowns -/

/-- Claim C2 (evaluation at the failing input): with `Knowns = [-1, 0, -1]`
(position 1 forced blank) the optimizedmax enumerator emits the permutation
`[0, 1, 0]`, which fills the forced-blank position: its blank branch (line 35
of the source) recurses without the `Knowns` argument, discarding all remaining
constraints. The NonogramSolverPlots variant, identical except that its blank
branch passes `Knowns` on, emits only the consistent permutations on the same
input. -/
theorem optimizedmax_knowns_violation :
    computePermsOpt [1] 3 (some [-1, 0, -1]) = [[0, 0, 1], [0, 1, 0], [1, 0, 0]] ∧
    ([-1, 0, -1] : List Int).getD 1 (-1) = 0 ∧
    ([0, 1, 0] : List Nat).getD 1 0 = 1 ∧
    computePermsPlots [1] 3 (some [-1, 0, -1]) = Except.ok [[0, 0, 1], [1, 0, 0]] := by
  refine ⟨?_, by decide, by decide, ?_⟩
  · simp [computePermsOpt, computePermsAuxOpt, knownFilledAt, knownFilledFrom, knownBlankIn]
  · rw [computePermsPlots, if_neg (by decide), if_neg (by decide)]
    simp [computePermsAuxPlots, knownFilledAt, knownFilledFrom, knownBlankIn]

/-! ## Claim C10: generated clues are exact and satisfiable -/

theorem getD_mem_of_lt {α : Type} (l : List α) (n : Nat) (d : α) (h : n < l.length) :
    l.getD n d ∈ l := by
  rw [List.getD_eq_getElem l d h]
  exact List.getElem_mem h

theorem getD_map_of_lt {α β : Type} (f : α → β) (l : List α) (r : Nat)
    (h : r < l.length) (d : β) (d' : α) :
    (l.map f).getD r d = f (l.getD r d') := by
  rw [List.getD_eq_getElem (l.map f) d (by simpa using h), List.getD_eq_getElem l d' h,
    List.getElem_map]

theorem runs_ne_nil_of_mem_one (l : List Nat) (hbin : ∀ x ∈ l, x = 0 ∨ x = 1)
    (h1 : (1 : Nat) ∈ l) : runs l ≠ [] := by
  intro h
  have := eq_zero_of_runs_nil l hbin h 1 h1
  omega

/-- Claim C10: for every grid produced by `generate_valid_nonogram` (binary
entries, no empty row or column), the emitted row and column clues are exactly
the maximal-run decompositions of the grid lines, and the grid itself solves
the emitted puzzle: each of its rows and columns is one of the permutations the
encoder enumerates for the corresponding clue. -/
theorem generated_clues_exact_and_satisfiable (grid : List (List Nat)) (C : Nat)
    (hshape : ∀ row ∈ grid, row.length = C)
    (hbin : ∀ row ∈ grid, ∀ x ∈ row, x = 0 ∨ x = 1)
    (hrow : ∀ row ∈ grid, (1 : Nat) ∈ row)
    (hcol : ∀ c, c < C → ∃ row ∈ grid, row.getD c 0 = 1) :
    rowClues grid = grid.map runs ∧
    colClues grid C = (List.range C).map (fun c => runs (colOf grid c)) ∧
    (∀ r, r < grid.length →
      grid.getD r [] ∈ computePerms ((rowClues grid).getD r []) C) ∧
    (∀ c, c < C →
      colOf grid c ∈ computePerms ((colClues grid C).getD c []) grid.length) := by
  have hcolbin : ∀ c, c < C → ∀ x ∈ colOf grid c, x = 0 ∨ x = 1 := by
    intro c hc x hx
    rw [colOf, List.mem_map] at hx
    obtain ⟨row, hrowmem, rfl⟩ := hx
    exact hbin row hrowmem _ (getD_mem_of_lt row c 0 (by rw [hshape row hrowmem]; exact hc))
  have hcolone : ∀ c, c < C → (1 : Nat) ∈ colOf grid c := by
    intro c hc
    obtain ⟨row, hrowmem, hval⟩ := hcol c hc
    rw [colOf, List.mem_map]
    exact ⟨row, hrowmem, hval⟩
  refine ⟨?_, ?_, ?_, ?_⟩
  · rw [rowClues]
    apply List.map_congr_left
    intro row hrowmem
    rw [lineClue, if_neg (runs_ne_nil_of_mem_one row (hbin row hrowmem) (hrow row hrowmem))]
  · rw [colClues]
    apply List.map_congr_left
    intro c hc
    rw [List.mem_range] at hc
    rw [lineClue, if_neg (runs_ne_nil_of_mem_one _ (hcolbin c hc) (hcolone c hc))]
  · intro r hr
    have hrowmem : grid.getD r [] ∈ grid := getD_mem_of_lt grid r [] hr
    have hclue : (rowClues grid).getD r [] = lineClue (grid.getD r []) := by
      rw [rowClues]
      exact getD_map_of_lt lineClue grid r hr [] []
    rw [hclue, lineClue,
      if_neg (runs_ne_nil_of_mem_one _ (hbin _ hrowmem) (hrow _ hrowmem))]
    apply (mem_computePerms_iff _ C (runs_pos _) ?_ _).mpr
    · exact ⟨hshape _ hrowmem, hbin _ hrowmem, rfl⟩
    · have := runs_min_length (grid.getD r [])
      rw [hshape _ hrowmem] at this
      omega
  · intro c hc
    have hlen : (colOf grid c).length = grid.length := by
      rw [colOf, List.length_map]
    have hclue : (colClues grid C).getD c [] = lineClue (colOf grid c) := by
      rw [colClues]
      have h1 : ((List.range C).map (fun j => lineClue (colOf grid j))).getD c [] =
          lineClue (colOf grid ((List.range C).getD c 0)) :=
        getD_map_of_lt _ (List.range C) c (by simpa using hc) [] 0
      rw [h1, List.getD_eq_getElem (List.range C) 0 (by simpa using hc),
        List.getElem_range]
    rw [hclue, lineClue,
      if_neg (runs_ne_nil_of_mem_one _ (hcolbin c hc) (hcolone c hc))]
    apply (mem_computePerms_iff _ grid.length (runs_pos _) ?_ _).mpr
    · exact ⟨hlen, hcolbin c hc, rfl⟩
    · have := runs_min_length (colOf grid c)
      rw [hlen] at this
      omega

/-- Witness for C10 at the concrete grid `[[1]]` with one column. -/
theorem generated_clues_exact_and_satisfiable_witness :
    ((∀ row ∈ [[1]], row.length = 1) ∧ (∀ row ∈ [[1]], ∀ x ∈ row, x = 0 ∨ x = 1) ∧
      (∀ row ∈ [[1]], (1 : Nat) ∈ row) ∧
      (∀ c, c < 1 → ∃ row ∈ [[1]], row.getD c 0 = 1)) ∧
    (rowClues [[1]] = [[1]].map runs ∧
      colClues [[1]] 1 = (List.range 1).map (fun c => runs (colOf [[1]] c)) ∧
      (∀ r, r < [[1]].length →
        [[1]].getD r [] ∈ computePerms ((rowClues [[1]]).getD r []) 1) ∧
      (∀ c, c < 1 →
        colOf [[1]] c ∈ computePerms ((colClues [[1]] 1).getD c []) [[1]].length)) :=
  ⟨⟨by decide, by decide, by decide, by decide⟩,
    generated_clues_exact_and_satisfiable [[1]] 1
      (by decide) (by decide) (by decide) (by decide)⟩

/-! ## Claim C7: the fixed 10×10 example of `project1nonogram.py` -/

theorem rowList_binary {R C : Nat} (g : Fin R → Fin C → Bool) (r : Fin R) :
    ∀ x ∈ rowList g r, x = 0 ∨ x = 1 := by
  intro x hx
  rw [rowList, List.mem_ofFn] at hx
  obtain ⟨c, hc⟩ := hx
  simp only at hc
  rw [← hc]
  by_cases h : g r c = true <;> simp [h]

theorem colList_binary {R C : Nat} (g : Fin R → Fin C → Bool) (c : Fin C) :
    ∀ x ∈ colList g c, x = 0 ∨ x = 1 := by
  intro x hx
  rw [colList, List.mem_ofFn] at hx
  obtain ⟨r, hr⟩ := hx
  simp only at hr
  rw [← hr]
  by_cases h : g r c = true <;> simp [h]

theorem sum_get_eq_map_sum (l : List (List Nat)) :
    (∑ r : Fin l.length, (l.get r).sum) = (l.map List.sum).sum := by
  have h : (List.ofFn fun r : Fin l.length => (l.get r).sum) = l.map List.sum := by
    rw [show (fun r : Fin l.length => (l.get r).sum) = List.sum ∘ l.get from rfl,
      ← List.map_ofFn, List.ofFn_get]
  rw [← List.sum_ofFn, h]

/-- The fixed example puzzle has no genuine solution at all: its row clues
require 33 filled cells in total while its column clues require 32. -/
theorem fixed_example_no_genuine_solution :
    ∀ g : Fin H7.length → Fin V7.length → Bool, ¬ GenuineSolution H7 V7 g := by
  intro g hg
  obtain ⟨hrg, hcg⟩ := hg
  have hrow : ∀ r : Fin H7.length, (rowList g r).sum = (H7.get r).sum := by
    intro r
    rw [← hrg r, runs_sum _ (rowList_binary g r)]
  have hcol : ∀ c : Fin V7.length, (colList g c).sum = (V7.get c).sum := by
    intro c
    rw [← hcg c, runs_sum _ (colList_binary g c)]
  have hdc : (∑ r : Fin H7.length, (rowList g r).sum) =
      ∑ c : Fin V7.length, (colList g c).sum := by
    simp only [rowList, colList, List.sum_ofFn]
    rw [Finset.sum_comm]
  have h1 : (∑ r : Fin H7.length, (rowList g r).sum) = 33 := by
    rw [Finset.sum_congr rfl (fun r _ => hrow r), sum_get_eq_map_sum]
    rfl
  have h2 : (∑ c : Fin V7.length, (colList g c).sum) = 32 := by
    rw [Finset.sum_congr rfl (fun c _ => hcol c), sum_get_eq_map_sum]
    rfl
  omega

/-- Claim C7 (counterexample): the formula that `well_posed` in
`project1nonogram.py` builds for the fixed 10×10 example has at least two
distinct models (`apply_constraints` leaves the cells before each placed block
unconstrained), so with a sound and complete oracle the second check succeeds
and `well_posed(V, H)` returns `False`, not `True`. -/
theorem project1nonogram_not_well_posed_on_fixed_puzzle : ¬ wellPosedAC V7 H7 := by
  rintro ⟨g, _, huniq⟩
  have ha : ACSolves V7 H7 G7a := ⟨by decide, by decide, by decide⟩
  have hb : ACSolves V7 H7 G7b := ⟨by decide, by decide, by decide⟩
  have heq : G7a = G7b := (huniq G7a ha).trans (huniq G7b hb).symm
  exact absurd heq (by decide)

/-- Claim C7 (amended): on the fixed example the solver does report a model of
its formula (the formula is satisfiable), but the well-posedness check cannot
return `True`: the formula has two explicit distinct models, and in fact the
puzzle has no genuine solution at all (33 filled cells demanded by rows versus
32 by columns). -/
theorem fixed_puzzle_verdict :
    (∃ g, ACSolves V7 H7 g) ∧
    (ACSolves V7 H7 G7a ∧ ACSolves V7 H7 G7b ∧ G7a ≠ G7b) ∧
    (∀ g : Fin H7.length → Fin V7.length → Bool, ¬ GenuineSolution H7 V7 g) := by
  have ha : ACSolves V7 H7 G7a := ⟨by decide, by decide, by decide⟩
  have hb : ACSolves V7 H7 G7b := ⟨by decide, by decide, by decide⟩
  exact ⟨⟨G7a, ha⟩, ⟨ha, hb, by decide⟩, fixed_example_no_genuine_solution⟩

/-! ## Claim C6: the Knowns-pruned encoding has the same models -/

/-- With no `Knowns` the optimizedmax enumerator coincides with the plain
one. -/
theorem auxOpt_none_eq :
    ∀ (n : Nat) (c : List Nat) (i sz : Nat) (curr : List Nat),
      c.length + (sz - i) ≤ n →
      computePermsAuxOpt c i sz curr none = computePermsAux c i sz curr := by
  intro n
  induction n with
  | zero =>
    intro c i sz curr hn
    have hc : c = [] := by
      cases c with
      | nil => rfl
      | cons b rest => simp at hn
    subst hc
    rw [computePermsAuxOpt, computePermsAux]
    by_cases hi : i = sz
    · rw [if_pos hi, if_pos hi]
    · rw [if_neg hi, if_neg hi, if_neg (by rw [knownFilledFrom]; simp)]
  | succ n ih =>
    intro c i sz curr hn
    cases c with
    | nil =>
      rw [computePermsAuxOpt, computePermsAux]
      by_cases hi : i = sz
      · rw [if_pos hi, if_pos hi]
      · rw [if_neg hi, if_neg hi, if_neg (by rw [knownFilledFrom]; simp)]
    | cons b rest =>
      simp only [List.length_cons] at hn
      rw [computePermsAuxOpt, computePermsAux]
      by_cases hi : i = sz
      · rw [if_pos hi, if_pos hi]
      · rw [if_neg hi, if_neg hi]
        congr 1
        · by_cases h : (0 : Int) < (sz : Int) - (i : Int) -
              ((b + rest.sum : Nat) : Int) - ((rest.length : Nat) : Int)
          · rw [dif_pos h, dif_pos h, if_neg (by rw [knownFilledAt]; simp)]
            exact ih (b :: rest) (i + 1) sz (curr.set i 0)
              (by simp only [List.length_cons]; omega)
          · rw [dif_neg h, dif_neg h]
        · rw [if_neg (by rw [knownBlankIn]; simp)]
          by_cases hr : rest = []
          · rw [dif_pos hr, dif_pos hr]
            subst hr
            exact ih [] (i + b) sz _ (by simp only [List.length_nil]; omega)
          · rw [dif_neg hr, dif_neg hr, if_neg (by rw [knownFilledAt]; simp)]
            exact ih rest (i + b + 1) sz _ (by omega)

/-- Soundness of the `Knowns` pruning: everything the optimizedmax enumerator
emits under any `Knowns` is emitted by the plain enumeration. -/
theorem auxOpt_subset :
    ∀ (n : Nat) (c : List Nat) (i sz : Nat) (curr : List Nat)
      (K : Option (List Int)) (pm : List Nat),
      c.length + (sz - i) ≤ n →
      pm ∈ computePermsAuxOpt c i sz curr K →
      pm ∈ computePermsAux c i sz curr := by
  intro n
  induction n with
  | zero =>
    intro c i sz curr K pm hn hmem
    have hc : c = [] := by
      cases c with
      | nil => rfl
      | cons b rest => simp at hn
    subst hc
    rw [computePermsAuxOpt] at hmem
    rw [computePermsAux]
    by_cases hi : i = sz
    · rw [if_pos hi] at hmem
      rw [if_pos hi]
      exact hmem
    · rw [if_neg hi] at hmem
      rw [if_neg hi]
      by_cases hk : knownFilledFrom K i
      · rw [if_pos hk] at hmem
        simp at hmem
      · rw [if_neg hk] at hmem
        exact hmem
  | succ n ih =>
    intro c i sz curr K pm hn hmem
    cases c with
    | nil =>
      rw [computePermsAuxOpt] at hmem
      rw [computePermsAux]
      by_cases hi : i = sz
      · rw [if_pos hi] at hmem
        rw [if_pos hi]
        exact hmem
      · rw [if_neg hi] at hmem
        rw [if_neg hi]
        by_cases hk : knownFilledFrom K i
        · rw [if_pos hk] at hmem
          simp at hmem
        · rw [if_neg hk] at hmem
          exact hmem
    | cons b rest =>
      simp only [List.length_cons] at hn
      rw [computePermsAuxOpt] at hmem
      rw [computePermsAux]
      by_cases hi : i = sz
      · rw [if_pos hi] at hmem
        rw [if_pos hi]
        exact hmem
      · rw [if_neg hi] at hmem
        rw [if_neg hi]
        rcases List.mem_append.mp hmem with hblank | hblock
        · apply List.mem_append_left
          by_cases h : (0 : Int) < (sz : Int) - (i : Int) -
              ((b + rest.sum : Nat) : Int) - ((rest.length : Nat) : Int)
          · rw [dif_pos h] at hblank
            rw [dif_pos h]
            by_cases hk : knownFilledAt K i
            · rw [if_pos hk] at hblank
              simp at hblank
            · rw [if_neg hk] at hblank
              rw [← auxOpt_none_eq (rest.length + 1 + (sz - (i + 1))) (b :: rest) (i + 1)
                sz (curr.set i 0) (by simp only [List.length_cons]; omega)]
              exact hblank
          · rw [dif_neg h] at hblank
            simp at hblank
        · apply List.mem_append_right
          by_cases hkb : knownBlankIn K i b
          · rw [if_pos hkb] at hblock
            simp at hblock
          · rw [if_neg hkb] at hblock
            by_cases hr : rest = []
            · rw [dif_pos hr] at hblock
              rw [dif_pos hr]
              subst hr
              exact ih [] (i + b) sz _ K pm (by simp only [List.length_nil]; omega) hblock
            · rw [dif_neg hr] at hblock
              rw [dif_neg hr]
              by_cases hk : knownFilledAt K (i + b)
              · rw [if_pos hk] at hblock
                simp at hblock
              · rw [if_neg hk] at hblock
                exact ih rest (i + b + 1) sz _ K pm (by omega) hblock

theorem replicate_zero_getD (m j : Nat) : (List.replicate m (0 : Nat)).getD j 0 = 0 := by
  by_cases h : j < m
  · rw [List.getD_eq_getElem _ _ (by simpa using h), List.getElem_replicate]
  · rw [List.getD_eq_default _ _ (by simpa using h)]

theorem replicate_one_getD (b k : Nat) (h : k < b) :
    (List.replicate b (1 : Nat)).getD k 0 = 1 := by
  rw [List.getD_eq_getElem _ _ (by simpa using h), List.getElem_replicate]

theorem knownFilledAt_iff (K : List Int) (j : Nat) :
    knownFilledAt (some K) j = true ↔ K.getD j (-1) = 1 := by
  rw [knownFilledAt]
  exact decide_eq_true_iff

theorem knownFilledFrom_exists (K : List Int) (i : Nat)
    (h : knownFilledFrom (some K) i = true) :
    ∃ j, i ≤ j ∧ j < K.length ∧ K.getD j (-1) = 1 := by
  rw [knownFilledFrom, List.any_eq_true] at h
  obtain ⟨x, hx, hval⟩ := h
  obtain ⟨k, hk, hget⟩ := List.getElem_of_mem hx
  rw [List.getElem_drop] at hget
  rw [List.length_drop] at hk
  refine ⟨i + k, by omega, by omega, ?_⟩
  rw [List.getD_eq_getElem _ _ (by omega), hget]
  simpa using hval

theorem knownBlankIn_exists (K : List Int) (i b : Nat)
    (h : knownBlankIn (some K) i b = true) :
    ∃ j, i ≤ j ∧ j < i + b ∧ j < K.length ∧ K.getD j (-1) = 0 := by
  rw [knownBlankIn, List.any_eq_true] at h
  obtain ⟨x, hx, hval⟩ := h
  obtain ⟨k, hk, hget⟩ := List.getElem_of_mem hx
  rw [List.getElem_take, List.getElem_drop] at hget
  simp only [List.length_take, List.length_drop, lt_min_iff] at hk
  refine ⟨i + k, by omega, by omega, by omega, ?_⟩
  rw [List.getD_eq_getElem _ _ (by omega), hget]
  simpa using hval

/-- Completeness of the `Knowns` pruning in the optimizedmax enumerator: every
plain permutation consistent with the `Knowns` at all forced positions is
still emitted. -/
theorem mem_auxOpt_of_consistent :
    ∀ (n : Nat) (c : List Nat) (i sz : Nat) (curr : List Nat) (K : List Int)
      (pm : List Nat),
      c.length + (sz - i) ≤ n →
      curr.length = sz →
      i + c.sum + c.length ≤ sz + 1 →
      (∀ x ∈ c, 0 < x) →
      K.length = sz →
      pm ∈ computePermsAux c i sz curr →
      (∀ j, i ≤ j → j < sz →
        (K.getD j (-1) = 1 → pm.getD j 0 = 1) ∧
        (K.getD j (-1) = 0 → pm.getD j 0 = 0)) →
      pm ∈ computePermsAuxOpt c i sz curr (some K) := by
  intro n
  induction n with
  | zero =>
    intro c i sz curr K pm hn hcur hfit hpos hK hmem hcons
    have hc : c = [] := by
      cases c with
      | nil => rfl
      | cons b rest => simp at hn
    subst hc
    simp only [List.length_nil, Nat.zero_add] at hn
    have hsz : sz ≤ i := by omega
    rw [computePermsAux] at hmem
    rw [computePermsAuxOpt]
    by_cases hi : i = sz
    · rw [if_pos hi] at hmem
      rw [if_pos hi]
      exact hmem
    · rw [if_neg hi] at hmem
      rw [if_neg hi]
      have hf : knownFilledFrom (some K) i = false := by
        cases hv : knownFilledFrom (some K) i with
        | false => rfl
        | true =>
          obtain ⟨j, hij, hjK, _⟩ := knownFilledFrom_exists K i hv
          omega
      rw [hf]
      simpa using hmem
  | succ n ih =>
    intro c i sz curr K pm hn hcur hfit hpos hK hmem hcons
    cases c with
    | nil =>
      rw [computePermsAux] at hmem
      rw [computePermsAuxOpt]
      by_cases hi : i = sz
      · rw [if_pos hi] at hmem
        rw [if_pos hi]
        exact hmem
      · rw [if_neg hi] at hmem
        rw [if_neg hi]
        simp only [List.mem_singleton] at hmem
        have hf : knownFilledFrom (some K) i = false := by
          cases hv : knownFilledFrom (some K) i with
          | false => rfl
          | true =>
            obtain ⟨j, hij, hjK, hval⟩ := knownFilledFrom_exists K i hv
            have hj1 := (hcons j hij (by omega)).1 hval
            rw [hmem, List.getD_append_right _ _ _ _
              (by rw [List.length_take]; omega), replicate_zero_getD] at hj1
            exact absurd hj1 (by decide)
        rw [hf]
        simpa using hmem
    | cons b rest =>
      simp only [List.length_cons] at hn
      have hb : 0 < b := hpos b (by simp)
      have hsum : rest.length ≤ rest.sum :=
        length_le_sum rest (fun x hx => hpos x (by simp [hx]))
      simp only [List.sum_cons, List.length_cons] at hfit
      by_cases hi : i = sz
      · rw [computePermsAux, if_pos hi] at hmem
        rw [computePermsAuxOpt, if_pos hi]
        exact hmem
      · have hfit' : i + b + rest.sum + rest.length ≤ sz := by omega
        have hiz : i < sz := by omega
        have hib : i + b ≤ sz := by omega
        have hA : (curr.take i ++ List.replicate b 1).length = i + b := by
          simp only [List.length_append, List.length_take, List.length_replicate]
          omega
        have htake2 : (curr.take i ++ List.replicate b 1 ++ curr.drop (i + b)).take (i + b) =
            curr.take i ++ List.replicate b 1 := List.take_left' hA
        have hcur2 : (curr.take i ++ List.replicate b 1 ++ curr.drop (i + b)).length = sz := by
          simp only [List.length_append, List.length_take, List.length_replicate,
            List.length_drop]
          omega
        rw [computePermsAux, if_neg hi] at hmem
        rw [computePermsAuxOpt, if_neg hi]
        rcases List.mem_append.mp hmem with hblank | hblock
        · -- the blank branch of the plain enumeration
          apply List.mem_append_left
          by_cases h : (0 : Int) < (sz : Int) - (i : Int) -
              ((b + rest.sum : Nat) : Int) - ((rest.length : Nat) : Int)
          · rw [dif_pos h] at hblank
            rw [dif_pos h]
            -- the emitted permutation has a blank at position i
            have hsub := computePermsAux_eq_suffixList
              ((b :: rest).length + (sz - (i + 1))) (b :: rest) (i + 1) sz (curr.set i 0)
              le_rfl (by simp [hcur])
              (by simp only [List.sum_cons, List.length_cons]; omega) hpos
            have hmem2 := hblank
            rw [hsub] at hmem2
            obtain ⟨s, _, hpm⟩ := List.mem_map.mp hmem2
            have hpmi : pm.getD i 0 = 0 := by
              have hmin : i ⊓ curr.length = i := Nat.min_eq_left (by omega)
              rw [← hpm, take_set_succ curr i 0 (by omega), List.append_assoc,
                List.getD_append_right _ _ _ _ (by rw [List.length_take]; omega)]
              rw [List.length_take, hmin]
              simp
            have hk : knownFilledAt (some K) i = false := by
              cases hv : knownFilledAt (some K) i with
              | false => rfl
              | true =>
                have := (hcons i le_rfl hiz).1 ((knownFilledAt_iff K i).mp hv)
                omega
            rw [hk]
            simp only [Bool.false_eq_true, if_false]
            rw [auxOpt_none_eq ((b :: rest).length + (sz - (i + 1))) (b :: rest) (i + 1)
              sz (curr.set i 0) le_rfl]
            exact hblank
          · rw [dif_neg h] at hblank
            simp at hblank
        · -- the block branch of the plain enumeration
          apply List.mem_append_right
          -- first compute the filled prefix of the emitted permutation
          have hfill : ∀ j, i ≤ j → j < i + b → pm.getD j 0 = 1 := by
            intro j hij hjb
            by_cases hr : rest = []
            · rw [dif_pos hr] at hblock
              subst hr
              rw [computePermsAux_nil _ _ _ hcur2, List.mem_singleton, htake2] at hblock
              have hmin : i ⊓ curr.length = i := Nat.min_eq_left (by omega)
              rw [hblock, List.getD_append _ _ _ _ (by rw [hA]; omega),
                List.getD_append_right _ _ _ _ (by rw [List.length_take]; omega),
                List.length_take, hmin, replicate_one_getD b (j - i) (by omega)]
            · rw [dif_neg hr] at hblock
              have hrl : 1 ≤ rest.length := by
                cases rest with
                | nil => exact absurd rfl hr
                | cons x xs => simp
              have hibz : i + b < sz := by omega
              have hsub := computePermsAux_eq_suffixList
                (rest.length + (sz - (i + b + 1))) rest (i + b + 1) sz
                ((curr.take i ++ List.replicate b 1 ++ curr.drop (i + b)).set (i + b) 0)
                le_rfl (by rw [List.length_set]; exact hcur2) (by omega)
                (fun x hx => hpos x (by simp [hx]))
              have hmem2 := hblock
              rw [hsub] at hmem2
              obtain ⟨s, _, hpm⟩ := List.mem_map.mp hmem2
              have hmin : i ⊓ curr.length = i := Nat.min_eq_left (by omega)
              have hlen01 : (curr.take i ++ List.replicate b 1 ++ [0]).length = i + b + 1 := by
                simp only [List.length_append, List.length_cons, List.length_nil, hA]
              rw [← hpm, take_set_succ _ (i + b) 0 (by rw [hcur2]; omega), htake2,
                List.getD_append _ _ _ _ (by rw [hlen01]; omega),
                List.getD_append _ _ _ _ (by rw [hA]; omega),
                List.getD_append_right _ _ _ _ (by rw [List.length_take]; omega),
                List.length_take, hmin, replicate_one_getD b (j - i) (by omega)]
          have hkb : knownBlankIn (some K) i b = false := by
            cases hv : knownBlankIn (some K) i b with
            | false => rfl
            | true =>
              obtain ⟨j, hij, hjb, hjK, hval⟩ := knownBlankIn_exists K i b hv
              have := (hcons j hij (by omega)).2 hval
              rw [hfill j hij hjb] at this
              exact absurd this (by decide)
          rw [hkb]
          simp only [Bool.false_eq_true, if_false]
          by_cases hr : rest = []
          · rw [dif_pos hr] at hblock
            rw [dif_pos hr]
            subst hr
            exact ih [] (i + b) sz _ K pm (by simp only [List.length_nil]; omega)
              hcur2 (by simp only [List.sum_nil, List.length_nil]; omega)
              (by simp) hK hblock
              (fun j hj hjsz => hcons j (by omega) hjsz)
          · rw [dif_neg hr] at hblock
            rw [dif_neg hr]
            have hrl : 1 ≤ rest.length := by
              cases rest with
              | nil => exact absurd rfl hr
              | cons x xs => simp
            have hibz : i + b < sz := by omega
            -- the separator cell is blank in the emitted permutation
            have hsep : pm.getD (i + b) 0 = 0 := by
              have hsub := computePermsAux_eq_suffixList
                (rest.length + (sz - (i + b + 1))) rest (i + b + 1) sz
                ((curr.take i ++ List.replicate b 1 ++ curr.drop (i + b)).set (i + b) 0)
                le_rfl (by rw [List.length_set]; exact hcur2) (by omega)
                (fun x hx => hpos x (by simp [hx]))
              have hmem2 := hblock
              rw [hsub] at hmem2
              obtain ⟨s, _, hpm⟩ := List.mem_map.mp hmem2
              have hlen01 : (curr.take i ++ List.replicate b 1 ++ [0]).length = i + b + 1 := by
                simp only [List.length_append, List.length_cons, List.length_nil, hA]
              rw [← hpm, take_set_succ _ (i + b) 0 (by rw [hcur2]; omega), htake2,
                List.getD_append _ _ _ _ (by rw [hlen01]; omega),
                List.getD_append_right _ _ _ _ (by rw [hA]), hA]
              simp
            have hk : knownFilledAt (some K) (i + b) = false := by
              cases hv : knownFilledAt (some K) (i + b) with
              | false => rfl
              | true =>
                have := (hcons (i + b) (by omega) hibz).1
                  ((knownFilledAt_iff K (i + b)).mp hv)
                omega
            rw [hk]
            simp only [Bool.false_eq_true, if_false]
            exact ih rest (i + b + 1) sz _ K pm (by omega)
              (by rw [List.length_set]; exact hcur2) (by omega)
              (fun x hx => hpos x (by simp [hx])) hK hblock
              (fun j hj hjsz => hcons j (by omega) hjsz)

theorem sum_le_length_of_all_le_one :
    ∀ (l : List Nat), (∀ x ∈ l, x ≤ 1) → l.sum ≤ l.length := by
  intro l
  induction l with
  | nil => simp
  | cons y ys ih =>
    intro hle
    have := ih (fun x hx => hle x (by simp [hx]))
    have hy := hle y (by simp)
    simp only [List.sum_cons, List.length_cons]
    omega

theorem all_eq_one_of_sum_eq_length :
    ∀ (l : List Nat), (∀ x ∈ l, x ≤ 1) → l.sum = l.length → ∀ x ∈ l, x = 1 := by
  intro l
  induction l with
  | nil => simp
  | cons y ys ih =>
    intro hle hsum x hx
    have hys := sum_le_length_of_all_le_one ys (fun z hz => hle z (by simp [hz]))
    have hy := hle y (by simp)
    simp only [List.sum_cons, List.length_cons] at hsum
    have hy1 : y = 1 := by omega
    have hsum2 : ys.sum = ys.length := by omega
    rcases List.mem_cons.mp hx with rfl | hmem
    · exact hy1
    · exact ih (fun z hz => hle z (by simp [hz])) hsum2 x hmem

/-- If the numpy column sum of the permutation matrix equals the number of
permutations (verdict 1), the position is filled in every permutation. -/
theorem verdictOf_one (perms : List (List Nat)) (j : Nat)
    (hle : ∀ pm ∈ perms, pm.getD j 0 ≤ 1) (h : verdictOf perms j = 1) :
    ∀ pm ∈ perms, pm.getD j 0 = 1 := by
  rw [verdictOf] at h
  by_cases h0 : (perms.map fun pm => pm.getD j 0).sum = 0
  · rw [if_pos h0] at h
    exact absurd h (by decide)
  · rw [if_neg h0] at h
    by_cases h1 : (perms.map fun pm => pm.getD j 0).sum = perms.length
    · intro pm hpm
      have := all_eq_one_of_sum_eq_length (perms.map fun pm => pm.getD j 0)
        (by
          intro x hx
          obtain ⟨q, hq, rfl⟩ := List.mem_map.mp hx
          exact hle q hq)
        (by rw [List.length_map]; exact h1)
      exact this _ (List.mem_map_of_mem _ hpm)
    · rw [if_neg h1] at h
      exact absurd h (by decide)

/-- If the numpy column sum is zero (verdict 0), the position is blank in every
permutation. -/
theorem verdictOf_zero (perms : List (List Nat)) (j : Nat)
    (h : verdictOf perms j = 0) : ∀ pm ∈ perms, pm.getD j 0 = 0 := by
  rw [verdictOf] at h
  by_cases h0 : (perms.map fun pm => pm.getD j 0).sum = 0
  · intro pm hpm
    rw [List.sum_eq_zero_iff] at h0
    exact h0 _ (List.mem_map_of_mem _ hpm)
  · rw [if_neg h0] at h
    by_cases h1 : (perms.map fun pm => pm.getD j 0).sum = perms.length
    · rw [if_pos h1] at h
      exact absurd h (by decide)
    · rw [if_neg h1] at h
      exact absurd h (by decide)

theorem getD_le_one_of_binary (pm : List Nat) (hbin : ∀ x ∈ pm, x = 0 ∨ x = 1)
    (j : Nat) : pm.getD j 0 ≤ 1 := by
  by_cases hj : j < pm.length
  · have := hbin _ (getD_mem_of_lt pm j 0 hj)
    omega
  · rw [List.getD_eq_default _ _ (by omega)]
    omega

theorem getD_eq_get {α : Type} (l : List α) (d : α) (i : Fin l.length) :
    l.getD (i : Nat) d = l.get i := by
  rw [List.getD_eq_getElem l d i.isLt, List.get_eq_getElem]

/-- Forced-cell soundness: every unit constraint derived from `Paux` holds in
every solution of the plain formula. -/
theorem paux_consistent (H V : List (List Nat)) (hc : checkConstraints H V = true)
    (g : Fin H.length → Fin V.length → Bool) (hg : Solves H V g) :
    ∀ (r : Fin H.length) (c : Fin V.length),
      (PauxAt H V r c = 1 → g r c = true) ∧ (PauxAt H V r c = 0 → g r c = false) := by
  intro r c
  obtain ⟨hH, hV⟩ := checkConstraints_spec H V hc
  have hVfeas := hV (V.get c) (V.get_mem _ c.isLt)
  have hHfeas := hH (H.get r) (H.get_mem _ r.isLt)
  have hcolmem := hg.2 c
  have hrowmem := hg.1 r
  have hcolle : ∀ pm ∈ computePerms (V.get c) H.length, pm.getD (r : Nat) 0 ≤ 1 := by
    intro pm hpm
    exact getD_le_one_of_binary pm
      ((mem_computePerms_iff _ _ hVfeas.1 hVfeas.2 pm).mp hpm).2.1 _
  have hrowle : ∀ pm ∈ computePerms (H.get r) V.length, pm.getD (c : Nat) 0 ≤ 1 := by
    intro pm hpm
    exact getD_le_one_of_binary pm
      ((mem_computePerms_iff _ _ hHfeas.1 hHfeas.2 pm).mp hpm).2.1 _
  rw [PauxAt]
  simp only [getD_eq_get V [] c, getD_eq_get H [] r]
  by_cases hcv : verdictOf (computePerms (V.get c) H.length) (r : Nat) = -1
  · rw [if_pos hcv]
    constructor
    · intro h1
      have := verdictOf_one _ _ hrowle h1 _ hrowmem
      rw [rowList_getD] at this
      revert this
      cases g r c <;> simp
    · intro h0
      have := verdictOf_zero _ _ h0 _ hrowmem
      rw [rowList_getD] at this
      revert this
      cases g r c <;> simp
  · rw [if_neg hcv]
    constructor
    · intro h1
      have := verdictOf_one _ _ hcolle h1 _ hcolmem
      rw [colList_getD] at this
      revert this
      cases g r c <;> simp
    · intro h0
      have := verdictOf_zero _ _ h0 _ hcolmem
      rw [colList_getD] at this
      revert this
      cases g r c <;> simp

theorem PauxRow_length (H V : List (List Nat)) (r : Nat) :
    (PauxRow H V r).length = V.length := by
  rw [PauxRow, List.length_map, List.length_range]

theorem PauxCol_length (H V : List (List Nat)) (c : Nat) :
    (PauxCol H V c).length = H.length := by
  rw [PauxCol, List.length_map, List.length_range]

theorem PauxRow_getD (H V : List (List Nat)) (r j : Nat) (hj : j < V.length) :
    (PauxRow H V r).getD j (-1) = PauxAt H V r j := by
  rw [PauxRow, getD_map_of_lt _ (List.range V.length) j (by simpa using hj) (-1) 0,
    List.getD_eq_getElem (List.range V.length) 0 (by simpa using hj), List.getElem_range]

theorem PauxCol_getD (H V : List (List Nat)) (c j : Nat) (hj : j < H.length) :
    (PauxCol H V c).getD j (-1) = PauxAt H V j c := by
  rw [PauxCol, getD_map_of_lt _ (List.range H.length) j (by simpa using hj) (-1) 0,
    List.getD_eq_getElem (List.range H.length) 0 (by simpa using hj), List.getElem_range]

/-- The optimized encoding (unit constraints from `Paux` plus Knowns-pruned
row/column clauses) has exactly the same models as the plain encoding. -/
theorem solvesOptimized_iff_solves (H V : List (List Nat))
    (hc : checkConstraints H V = true) (g : Fin H.length → Fin V.length → Bool) :
    SolvesOptimized H V g ↔ Solves H V g := by
  obtain ⟨hH, hV⟩ := checkConstraints_spec H V hc
  constructor
  · rintro ⟨_, hrows, hcols⟩
    constructor
    · intro r
      have hm := hrows r
      rw [computePermsOpt] at hm
      rw [computePerms]
      exact auxOpt_subset ((H.get r).length + V.length) _ 0 _ _ _ _ (by omega) hm
    · intro c
      have hm := hcols c
      rw [computePermsOpt] at hm
      rw [computePerms]
      exact auxOpt_subset ((V.get c).length + H.length) _ 0 _ _ _ _ (by omega) hm
  · intro hg
    have hpc := paux_consistent H V hc g hg
    refine ⟨hpc, ?_, ?_⟩
    · intro r
      have hfeas := hH (H.get r) (H.get_mem _ r.isLt)
      have hm := hg.1 r
      rw [computePerms] at hm
      rw [computePermsOpt]
      apply mem_auxOpt_of_consistent ((H.get r).length + V.length) _ 0 _ _ _ _
        (by omega) (by simp) (by have := hfeas.2; omega) hfeas.1
        (PauxRow_length H V r) hm
      intro j _ hjC
      rw [PauxRow_getD H V (r : Nat) j hjC]
      have hcell := hpc r ⟨j, hjC⟩
      have hget := rowList_getD g r ⟨j, hjC⟩
      constructor
      · intro h1
        rw [hget, if_pos (hcell.1 h1)]
      · intro h0
        rw [hget, if_neg (by rw [hcell.2 h0]; simp)]
    · intro c
      have hfeas := hV (V.get c) (V.get_mem _ c.isLt)
      have hm := hg.2 c
      rw [computePerms] at hm
      rw [computePermsOpt]
      apply mem_auxOpt_of_consistent ((V.get c).length + H.length) _ 0 _ _ _ _
        (by omega) (by simp) (by have := hfeas.2; omega) hfeas.1
        (PauxCol_length H V c) hm
      intro j _ hjR
      rw [PauxCol_getD H V (c : Nat) j hjR]
      have hcell := hpc ⟨j, hjR⟩ c
      have hget := colList_getD g c ⟨j, hjR⟩
      constructor
      · intro h1
        rw [hget, if_pos (hcell.1 h1)]
      · intro h0
        rw [hget, if_neg (by rw [hcell.2 h0]; simp)]

/-- Claim C6: for every puzzle accepted by `checkConstraints`, the verdict of
`well_posed_optimized` equals the verdict of `well_posed`: the two encodings
are satisfiable together, and for any first models the respective second
(blocking-clause) checks are unsatisfiable together, whichever models the
oracle picks. -/
theorem well_posed_optimized_same_verdict (H V : List (List Nat))
    (hc : checkConstraints H V = true) :
    ((∃ g, SolvesOptimized H V g) ↔ ∃ g, Solves H V g) ∧
    (∀ s1 s1', SolvesOptimized H V s1 → Solves H V s1' →
      ((¬ ∃ g, SolvesOptimized H V g ∧ Blocking s1 g) ↔
        (¬ ∃ g, Solves H V g ∧ Blocking s1' g))) := by
  have hiff := solvesOptimized_iff_solves H V hc
  constructor
  · exact exists_congr hiff
  · intro s1 s1' h1 h1'
    have h1s : Solves H V s1 := (hiff s1).mp h1
    have heq : (∃ g, SolvesOptimized H V g ∧ Blocking s1 g) ↔
        (∃ g, Solves H V g ∧ Blocking s1 g) :=
      exists_congr (fun g => and_congr_left (fun _ => hiff g))
    rw [heq, blocking_unsat_iff_unique H V hc s1 h1s,
      blocking_unsat_iff_unique H V hc s1' h1']
    constructor
    · intro hu s hs
      exact (hu s hs).trans (hu s1' h1').symm
    · intro hu s hs
      exact (hu s hs).trans (hu s1 h1s).symm

/-- Witness for C6 at the 1×1 puzzle `H = V = [[1]]`. -/
theorem well_posed_optimized_same_verdict_witness :
    checkConstraints [[1]] [[1]] = true ∧
      (((∃ g, SolvesOptimized [[1]] [[1]] g) ↔ ∃ g, Solves [[1]] [[1]] g) ∧
        (∀ s1 s1', SolvesOptimized [[1]] [[1]] s1 → Solves [[1]] [[1]] s1' →
          ((¬ ∃ g, SolvesOptimized [[1]] [[1]] g ∧ Blocking s1 g) ↔
            (¬ ∃ g, Solves [[1]] [[1]] g ∧ Blocking s1' g)))) :=
  ⟨by decide, well_posed_optimized_same_verdict [[1]] [[1]] (by decide)⟩

end Nonogram
